import Mathlib

/-!
Verification of `audit_repo_cloner` (`src/audit_repo_cloner/create_audit_repo.py`).

Conventions used throughout this development:
* Python strings are modelled as `List Char`; `String.toList` is used to write
  concrete literals.
* The filesystem is modelled as the set of existing paths, a path being the
  list of its components relative to some root directory.
* Remote (GitHub) state and subprocess outcomes are modelled explicitly as
  data; every fallible operation returns `Except`.
Each definition carries a comment pointing at the Python source it embeds.
-/

/-- Model of Python `s.replace(needle, repl)` for a non-empty `needle`
(leftmost, non-overlapping occurrences), written with an explicit fuel
argument so that the recursion is structural and kernel-computable.
When `fuel` is at least `s.length` the fuel never runs out. -/
def pyReplaceFuel (needle repl : List Char) : Nat → List Char → List Char
  | 0, s => s
  | _ + 1, [] => []
  | fuel + 1, c :: rest =>
    if List.isPrefixOf needle (c :: rest) then
      repl ++ pyReplaceFuel needle repl fuel (List.drop (needle.length - 1) rest)
    else
      c :: pyReplaceFuel needle repl fuel rest

/-- Python `s.replace(needle, repl)` (non-empty `needle`): the fuel is set to
the length of the subject string, which always suffices. -/
def pyReplace (needle repl s : List Char) : List Char :=
  pyReplaceFuel needle repl s.length s

/-- The literal `".git"` used by `prepare_authenticated_url`, written as an
explicit character list so that it reduces definitionally. -/
def gitStr : List Char := ['.', 'g', 'i', 't']

/-- The literal `"https://"` used by `prepare_authenticated_url`. -/
def httpsStr : List Char := ['h', 't', 't', 'p', 's', ':', '/', '/']

/-- Python `url.rstrip("/")`: drop every trailing forward slash. -/
def rstripSlash (s : List Char) : List Char :=
  (List.dropWhile (fun c => c = '/') s.reverse).reverse

/-- The string `"/tree/"` reversed, used to recognise a trailing
`/tree/<branch>` segment from the right end of the URL. -/
def treeRevMarker : List Char := ['/', 'e', 'e', 'r', 't', '/']

/-- Model of `re.sub(r"/tree/[^/]+/?$", "", url)`
(`create_audit_repo.py:440`): if the string, after ignoring at most one
trailing slash, ends with `/tree/<seg>` for a non-empty slash-free `<seg>`,
that whole suffix (including the optional trailing slash) is removed;
otherwise the string is returned unchanged. -/
def dropTreeBranch (s : List Char) : List Char :=
  let core := if s.getLast? = some '/' then s.dropLast else s
  let r := core.reverse
  let seg := List.takeWhile (fun c => c ≠ '/') r
  let rest := List.dropWhile (fun c => c ≠ '/') r
  if seg.isEmpty then s
  else if List.isPrefixOf treeRevMarker rest then (List.drop 6 rest).reverse
  else s

/-- Model of `url.replace("https://", f"https://{github_token}@")`
(`create_audit_repo.py:443`). -/
def injectToken (github_token url : List Char) : List Char :=
  pyReplace httpsStr (httpsStr ++ github_token ++ ['@']) url

/-- Embedding of `prepare_authenticated_url` (`create_audit_repo.py:433-443`):
`url.replace(".git", "")`, then `url.rstrip("/")`, then
`re.sub(r"/tree/[^/]+/?$", "", url)`, then
`url.replace("https://", f"https://{github_token}@")`. -/
def prepare_authenticated_url (source_url github_token : List Char) : List Char :=
  injectToken github_token (dropTreeBranch (rstripSlash (pyReplace gitStr [] source_url)))

-- Basic facts about `pyReplaceFuel`.

/-- Unfolding lemma: with a non-zero fuel, the empty string is returned
unchanged. -/
theorem pyReplaceFuel_nil (needle repl : List Char) (fuel : Nat) :
    pyReplaceFuel needle repl fuel [] = [] := by
  cases fuel <;> rfl

/-- If the needle occurs nowhere in the subject string, `pyReplaceFuel` is the
identity, whatever the fuel. -/
theorem pyReplaceFuel_of_needle_absent (needle repl : List Char) :
    ∀ (fuel : Nat) (s : List Char), ¬ needle <:+: s →
      pyReplaceFuel needle repl fuel s = s := by
  intro fuel
  induction fuel with
  | zero => intro s _; rfl
  | succ f ih =>
    intro s hs
    cases s with
    | nil => rfl
    | cons c rest =>
      have hpre : ¬ List.isPrefixOf needle (c :: rest) := by
        intro h
        exact hs (( List.isPrefixOf_iff_prefix.mp h).isInfix)
      have hrest : ¬ needle <:+: rest := fun h => hs (List.infix_cons h)
      simp [pyReplaceFuel, hpre, ih rest hrest]

/-- If the needle occurs nowhere in the subject string, Python `replace` is
the identity. -/
theorem pyReplace_of_needle_absent (needle repl s : List Char) (h : ¬ needle <:+: s) :
    pyReplace needle repl s = s :=
  pyReplaceFuel_of_needle_absent needle repl s.length s h

/-- Prefix of an append, bounded by the first part: if `x` is a prefix of
`y ++ z` and is no longer than `y`, it is a prefix of `y`. -/
theorem prefix_append_of_le_length {x y z : List Char}
    (h : x <+: y ++ z) (hl : x.length ≤ y.length) : x <+: y := by
  have hx : x = (y ++ z).take x.length := List.prefix_iff_eq_take.mp h
  have : (y ++ z).take x.length = y.take x.length := by
    rw [List.take_append_eq_append_take, Nat.sub_eq_zero_of_le hl, List.take_zero,
      List.append_nil]
  rw [hx, this]
  exact List.take_prefix _ _

/-- Appending `".git"` to a string that contains no `".git"` and running the
replacement removes exactly the appended suffix (no occurrence can straddle
the append boundary because no proper non-empty suffix of `".git"` is a
prefix of it). -/
theorem pyReplaceFuel_append_git :
    ∀ (u : List Char) (fuel : Nat), u.length + 4 ≤ fuel → ¬ gitStr <:+: u →
      pyReplaceFuel gitStr [] fuel (u ++ gitStr) = u := by
  intro u
  induction u with
  | nil =>
    intro fuel hfuel _
    obtain ⟨f, rfl⟩ : ∃ f, fuel = f + 1 := ⟨fuel - 1, by omega⟩
    have hpre : List.isPrefixOf gitStr ('.' :: ['g', 'i', 't']) = true := by decide
    simp only [List.nil_append, gitStr, pyReplaceFuel, hpre, if_true]
    simp [pyReplaceFuel_nil]
  | cons c u' ih =>
    intro fuel hfuel hinf
    obtain ⟨f, rfl⟩ : ∃ f, fuel = f + 1 := ⟨fuel - 1, by omega⟩
    have hinf' : ¬ gitStr <:+: u' := fun h => hinf (List.infix_cons h)
    have hpre : ¬ List.isPrefixOf gitStr (c :: (u' ++ gitStr)) = true := by
      intro h
      have hp : gitStr <+: c :: (u' ++ gitStr) := List.isPrefixOf_iff_prefix.mp h
      rcases u' with _ | ⟨a, _ | ⟨b, _ | ⟨d, u''⟩⟩⟩
      · simp only [gitStr, List.nil_append, List.cons_prefix_cons] at hp
        exact absurd hp.2.1 (by decide)
      · simp only [gitStr, List.cons_append, List.nil_append,
          List.cons_prefix_cons] at hp
        exact absurd hp.2.2.1 (by decide)
      · simp only [gitStr, List.cons_append, List.nil_append,
          List.cons_prefix_cons] at hp
        exact absurd hp.2.2.2.1 (by decide)
      · have hp' : gitStr <+: c :: a :: b :: d :: u'' := by
          have : gitStr <+: (c :: a :: b :: d :: u'') ++ gitStr := by
            simpa using hp
          exact prefix_append_of_le_length this (by simp [gitStr])
        exact hinf hp'.isInfix
    have hstep :
        pyReplaceFuel gitStr [] (f + 1) (c :: (u' ++ gitStr))
          = c :: pyReplaceFuel gitStr [] f (u' ++ gitStr) := by
      rw [Bool.not_eq_true] at hpre
      simp only [pyReplaceFuel, hpre, Bool.false_eq_true, if_false]
    simp only [List.cons_append, hstep]
    have : u'.length + 4 ≤ f := by
      simp only [List.length_cons] at hfuel; omega
    rw [ih f this hinf']

/-- C4 counterexample: the claim asserts that only a trailing `.git` suffix is
stripped and that a `.git` substring elsewhere in the URL (as in a repository
named `my.github.io`) is preserved. In fact `url.replace(".git", "")` removes
every occurrence: the repository name comes out as `myhub.io`. -/
theorem prepare_authenticated_url_counterexample :
    prepare_authenticated_url "https://github.com/org/my.github.io".toList "tok".toList
        = "https://tok@github.com/org/myhub.io".toList
    ∧ prepare_authenticated_url "https://github.com/org/my.github.io".toList "tok".toList
        ≠ "https://tok@github.com/org/my.github.io".toList := by
  constructor
  · decide
  · decide

/-- C4 (amended): `prepare_authenticated_url` removes every (leftmost,
non-overlapping) occurrence of `.git` anywhere in the URL — not only a
trailing suffix — then strips trailing slashes, strips a trailing
`/tree/<branch>` segment, and injects the access token after `https://`.
Concretely: (1) a URL containing no `.git` at all undergoes only the
slash-stripping, `/tree/<branch>`-stripping and token-injection steps;
(2) a trailing `.git` appended to such a URL is stripped; (3) a `.git`
occurring inside a repository name such as `my.github.io` is removed as
well (rather than preserved, as the unamended claim stated). -/
theorem prepare_authenticated_url_amended :
    (∀ u t, ¬ gitStr <:+: u →
        prepare_authenticated_url u t = injectToken t (dropTreeBranch (rstripSlash u)))
    ∧ (∀ u t, ¬ gitStr <:+: u →
        prepare_authenticated_url (u ++ gitStr) t = prepare_authenticated_url u t)
    ∧ prepare_authenticated_url "https://github.com/org/my.github.io".toList "tok".toList
        = "https://tok@github.com/org/myhub.io".toList := by
  refine ⟨?_, ?_, by decide⟩
  · intro u t h
    unfold prepare_authenticated_url
    rw [pyReplace_of_needle_absent _ _ _ h]
  · intro u t h
    have h1 : pyReplace gitStr [] (u ++ gitStr) = u :=
      pyReplaceFuel_append_git u (u ++ gitStr).length (by simp [gitStr]) h
    unfold prepare_authenticated_url
    rw [h1, pyReplace_of_needle_absent _ _ _ h]

/-- Witness for `prepare_authenticated_url_amended` at a concrete URL with a
trailing `.git` and a trailing slash. -/
theorem prepare_authenticated_url_amended_witness :
    prepare_authenticated_url ("https://github.com/org/repoA".toList ++ gitStr) "tok".toList
      = prepare_authenticated_url "https://github.com/org/repoA".toList "tok".toList :=
  prepare_authenticated_url_amended.2.1 "https://github.com/org/repoA".toList
    "tok".toList (by decide)

-- Filesystem model for `remove_github_actions` and `verify_files_exist`.

/-- A filesystem path relative to some root directory, as the list of its
components. A directory tree is modelled as the list of the paths that exist
under the root (the representation of choice for a filesystem, which maps
paths to objects). -/
abbrev FsPath := List String

/-- A name is hidden when it starts with a dot. Python's recursive `glob`
does not let `**` descend into hidden directories, `os.walk` pruning in
`verify_files_exist` drops them, and its file count skips hidden files. -/
def hiddenName (s : String) : Bool :=
  match s.toList with
  | '.' :: _ => true
  | _ => false

/-- The directory names listed in `GITHUB_ACTIONS_PATHS`
(`create_audit_repo.py:47-51`), each relative to a `.github` parent. -/
def githubActionsDirNames : List String := ["workflows", "actions", "action"]

/-- A relative path is matched by one of the glob patterns
`<dir>/**/.github/<X>` for `X` in `GITHUB_ACTIONS_PATHS` exactly when its
last two components are `.github` and one of the three names, and every
component matched by `**` (every earlier component) is non-hidden: Python's
recursive glob does not descend into hidden directories. -/
def ciGlobMatch (p : FsPath) : Bool :=
  match p.reverse with
  | x :: g :: pre =>
    githubActionsDirNames.contains x && g == ".github"
      && pre.all (fun c => !hiddenName c)
  | _ => false

/-- A path is removed by `remove_github_actions` when one of its prefixes
(possibly the path itself) is matched by a CI glob pattern:
`shutil.rmtree` deletes the matched directory together with everything
below it. -/
def underCIMatch (p : FsPath) : Bool :=
  (List.range (p.length + 1)).any (fun i => ciGlobMatch (p.take i))

/-- Embedding of `remove_github_actions` (`create_audit_repo.py:409-430`) on
the path-set model of the destination subtree: for each of the three
patterns, `glob.glob(os.path.join(directory_path, "**", actions_path),
recursive=True)` lists every existing path whose components are non-hidden
components followed by `.github/<X>`, and `shutil.rmtree` removes it with
everything below it. The surviving path set is therefore the original one
minus every path with a glob-matched prefix. -/
def remove_github_actions (fs : List FsPath) : List FsPath :=
  fs.filter (fun p => !underCIMatch p)

/-- The claim's notion of a CI-definition directory: a path whose relative
path ends in `.github/workflows`, `.github/actions` or `.github/action`,
at any depth. -/
def endsWithCIDir (p : FsPath) : Bool :=
  match p.reverse with
  | x :: g :: _ => githubActionsDirNames.contains x && g == ".github"
  | _ => false

/-- A destination subtree containing a CI directory below a hidden
directory: `.hidden/.github/workflows`. -/
def hiddenCIFs : List FsPath :=
  [["src"], ["src", "main.py"],
   [".hidden"], [".hidden", ".github"], [".hidden", ".github", "workflows"]]

/-- C1 counterexample: the claim says that after processing, no directory
whose relative path matches `.github/workflows`, `.github/actions` or
`.github/action` exists anywhere under the destination subtree, at any
nesting depth. A `.github/workflows` directory nested below a hidden
directory survives untouched, because Python's recursive glob `**` does not
descend into hidden directories. -/
theorem remove_github_actions_counterexample :
    remove_github_actions hiddenCIFs = hiddenCIFs
    ∧ [".hidden", ".github", "workflows"] ∈ remove_github_actions hiddenCIFs
    ∧ endsWithCIDir [".hidden", ".github", "workflows"] = true := by
  refine ⟨by decide, by decide, by decide⟩

/-- C1 (amended): after `remove_github_actions`, no directory whose relative
path consists of non-hidden components followed by `.github/workflows`,
`.github/actions` or `.github/action` exists under the destination
subtree; a matching directory lying below a hidden directory, however, is
not removed (the recursive glob does not descend into hidden directories),
as the counterexample shows. -/
theorem remove_github_actions_amended :
    ∀ (fs : List FsPath) (pre : List String) (g x : String),
      x ∈ githubActionsDirNames → g = ".github" →
      (∀ c ∈ pre, hiddenName c = false) →
      pre ++ [g, x] ∉ remove_github_actions fs := by
  intro fs pre g x hx hg hpre hmem
  have hmatch : ciGlobMatch (pre ++ [g, x]) = true := by
    unfold ciGlobMatch
    have hrev : (pre ++ [g, x]).reverse = x :: g :: pre.reverse := by
      simp
    rw [hrev]
    subst hg
    have hall : pre.reverse.all (fun c => !hiddenName c) = true := by
      rw [List.all_eq_true]
      intro c hc
      rw [hpre c (List.mem_reverse.mp hc)]
      rfl
    simpa [hall] using hx
  have hunder : underCIMatch (pre ++ [g, x]) = true := by
    unfold underCIMatch
    rw [List.any_eq_true]
    refine ⟨(pre ++ [g, x]).length, by simp, ?_⟩
    rw [List.take_length]
    exact hmatch
  have hkeep := (List.mem_filter.mp hmem).2
  rw [hunder] at hkeep
  exact absurd hkeep (by decide)

/-- Witness for `remove_github_actions_amended`: a concrete tree with
`src/.github/workflows` in it, which must not survive. -/
theorem remove_github_actions_amended_witness :
    ["src", ".github", "workflows"] ∉
      remove_github_actions
        [["src"], ["src", ".github"], ["src", ".github", "workflows"]] :=
  remove_github_actions_amended _ ["src"] ".github" "workflows"
    (by decide) rfl (by decide)

/-- Embedding of `verify_files_exist` (`create_audit_repo.py:386-406`).
The target directory is given by its existence flag and the list of file
paths below it (components relative to the target directory, the last
component being the file name). `os.walk` with
`dirs[:] = [d for d in dirs if not d.startswith(".")]` visits a file only
when none of its ancestor directories is hidden, and the count
`[f for f in files if not f.startswith(".")]` then also requires the file
name itself to be non-hidden; the function raises unless the target exists
and such a file is found. -/
def verify_files_exist (targetExists : Bool) (files : List FsPath) :
    Except String Unit :=
  if !targetExists then Except.error "Target directory does not exist"
  else if files.any (fun p => p.all (fun c => !hiddenName c)) then Except.ok ()
  else Except.error "No files found in target directory"

/-- C10: `verify_files_exist` raises exactly when the target directory does
not exist or no file with an entirely non-hidden path (no hidden ancestor
directory, non-hidden file name) lies below it; in particular a merged
subtree whose files all live under dot-directories — here only under
`.github/` — fails verification even though the merge added files. -/
theorem verify_files_exist_spec :
    (∀ (targetExists : Bool) (files : List FsPath),
      (∃ msg, verify_files_exist targetExists files = Except.error msg) ↔
        (targetExists = false ∨
          ¬ ∃ p ∈ files, ∀ c ∈ p, hiddenName c = false))
    ∧ verify_files_exist true [[".github", "workflows", "ci.yml"]]
        = Except.error "No files found in target directory" := by
  constructor
  · intro targetExists files
    cases targetExists with
    | false => simp [verify_files_exist]
    | true =>
      rw [show (∃ p ∈ files, ∀ c ∈ p, hiddenName c = false) ↔
          files.any (fun p => p.all (fun c => !hiddenName c)) = true from ?_]
      · cases h : files.any (fun p => p.all (fun c => !hiddenName c)) with
        | true => simp [verify_files_exist, h]
        | false => simp [verify_files_exist, h]
      · rw [List.any_eq_true]
        constructor
        · rintro ⟨p, hp, hall⟩
          refine ⟨p, hp, ?_⟩
          rw [List.all_eq_true]
          intro c hc
          rw [hall c hc]
          rfl
        · rintro ⟨p, hp, hall⟩
          refine ⟨p, hp, ?_⟩
          intro c hc
          have := List.all_eq_true.mp hall c hc
          revert this
          cases hiddenName c <;> simp
  · rfl

/-- Witness for `verify_files_exist_spec`: the two directions of the
equivalence at concrete inputs. -/
theorem verify_files_exist_spec_witness :
    ∃ msg, verify_files_exist false [["src", "main.py"]] = Except.error msg :=
  (verify_files_exist_spec.1 false [["src", "main.py"]]).mpr (Or.inl rfl)

-- Remote repository model for branch creation (C2, C8).

/-- Outcome of a GitHub `create_git_ref` call as seen by the caller:
success, or a `GithubException` carrying an HTTP status code. -/
inductive ApiOutcome where
  | ok : ApiOutcome
  | err : Nat → ApiOutcome
deriving DecidableEq

/-- Embedding of `create_branches_for_auditors`
(`create_audit_repo.py:779-791`): for each auditor in order, attempt to
create the ref `refs/heads/audit/<name>`; a `GithubException` with status
422 (branch already exists) is logged and skipped, any other status raises
`click.UsageError` and aborts the run. `api` gives the outcome of the
ref-creation attempt for each branch name; on success the list of branches
actually created is returned. -/
def create_branches_for_auditors (api : String → ApiOutcome) :
    List String → Except Nat (List String)
  | [] => Except.ok []
  | auditor :: rest =>
    match api ("audit/" ++ auditor) with
    | ApiOutcome.ok =>
      (create_branches_for_auditors api rest).map
        (fun l => ("audit/" ++ auditor) :: l)
    | ApiOutcome.err s =>
      if s = 422 then create_branches_for_auditors api rest
      else Except.error s

/-- Embedding of `create_report_branch` (`create_audit_repo.py:800-809`):
same tolerance for an already-existing branch, single branch `report`. -/
def create_report_branch (api : String → ApiOutcome) : Except Nat Unit :=
  match api "report" with
  | ApiOutcome.ok => Except.ok ()
  | ApiOutcome.err s => if s = 422 then Except.ok () else Except.error s

/-- An attempt outcome the code tolerates: success, or the already-exists
conflict HTTP 422. -/
def toleratedOutcome : ApiOutcome → Bool
  | ApiOutcome.ok => true
  | ApiOutcome.err s => s == 422

/-- C8: branch creation over the whole auditor list (and the report branch)
succeeds exactly when every individual attempt either succeeds or fails
with the already-exists conflict status 422 — those are skipped and the
loop continues — and whenever the run aborts, it aborts with the first
non-422 status actually returned for one of the branches. -/
theorem branch_creation_error_spec :
    ∀ (api : String → ApiOutcome) (auditors : List String),
      ((create_branches_for_auditors api auditors).isOk = true ↔
        ∀ a ∈ auditors, toleratedOutcome (api ("audit/" ++ a)) = true)
    ∧ ((create_report_branch api).isOk = true ↔
        toleratedOutcome (api "report") = true)
    ∧ (∀ s, create_branches_for_auditors api auditors = Except.error s →
        s ≠ 422 ∧ ∃ a ∈ auditors, api ("audit/" ++ a) = ApiOutcome.err s) := by
  intro api auditors
  refine ⟨?_, ?_, ?_⟩
  · induction auditors with
    | nil => simp [create_branches_for_auditors, Except.isOk, Except.toBool]
    | cons a rest ih =>
      cases h : api ("audit/" ++ a) with
      | ok =>
        simp only [create_branches_for_auditors, h]
        rw [show ∀ (e : Except Nat (List String)) f, (e.map f).isOk = e.isOk by
          intro e f; cases e <;> rfl]
        rw [ih]
        simp [h, toleratedOutcome]
      | err s =>
        by_cases hs : s = 422
        · subst hs
          have hstep : create_branches_for_auditors api (a :: rest)
              = create_branches_for_auditors api rest := by
            simp [create_branches_for_auditors, h]
          rw [hstep, ih]
          constructor
          · intro hall b hb
            rcases List.mem_cons.mp hb with rfl | hb'
            · rw [h]; rfl
            · exact hall b hb'
          · intro hall b hb
            exact hall b (List.mem_cons_of_mem _ hb)
        · simp only [create_branches_for_auditors, h, if_neg hs]
          constructor
          · intro hok; cases hok
          · intro hall
            have := hall a (by simp)
            rw [h] at this
            simp [toleratedOutcome] at this
            exact absurd this hs
  · cases h : api "report" with
    | ok => simp [create_report_branch, h, toleratedOutcome, Except.isOk, Except.toBool]
    | err s =>
      by_cases hs : s = 422
      · subst hs
        simp [create_report_branch, h, toleratedOutcome, Except.isOk, Except.toBool]
      · simp [create_report_branch, h, if_neg hs, toleratedOutcome, Except.isOk,
          Except.toBool, hs]
  · induction auditors with
    | nil => intro s h; cases h
    | cons a rest ih =>
      intro s herr
      cases h : api ("audit/" ++ a) with
      | ok =>
        simp only [create_branches_for_auditors, h] at herr
        cases hrec : create_branches_for_auditors api rest with
        | ok l => rw [hrec] at herr; cases herr
        | error s' =>
          rw [hrec] at herr
          cases herr
          obtain ⟨hs, b, hb, hapi⟩ := ih s hrec
          exact ⟨hs, b, by simp [hb], hapi⟩
      | err s' =>
        by_cases hs' : s' = 422
        · subst hs'
          have hstep : create_branches_for_auditors api (a :: rest)
              = create_branches_for_auditors api rest := by
            simp [create_branches_for_auditors, h]
          rw [hstep] at herr
          obtain ⟨hs, b, hb, hapi⟩ := ih s herr
          exact ⟨hs, b, by simp [hb], hapi⟩
        · simp only [create_branches_for_auditors, h, if_neg hs'] at herr
          cases herr
          exact ⟨hs', a, by simp, h⟩

/-- Witness for `branch_creation_error_spec`: a run where the first branch
already exists (422) and the second is fresh succeeds. -/
theorem branch_creation_error_spec_witness :
    (create_branches_for_auditors
      (fun b => if b = "audit/alice" then ApiOutcome.err 422 else ApiOutcome.ok)
      ["alice", "bob"]).isOk = true :=
  (branch_creation_error_spec
    (fun b => if b = "audit/alice" then ApiOutcome.err 422 else ApiOutcome.ok)
    ["alice", "bob"]).1.mpr (by decide)

/-- Remote repository state for the branch phase of `_create_audit_repo`:
the commit list in the order `repo.get_commits()` returns it (most recent
first) and the branch refs. Commits are identified by abstract numeric
ids. -/
structure RemoteRepo where
  commits : List Nat
  branches : List (String × Nat)
deriving DecidableEq

/-- Embedding of `initialize_repo` (`create_audit_repo.py:238-285`): the
fresh target repository after the initial README commit is pushed to
`main`. -/
def initialize_repo (initialCommit : Nat) : RemoteRepo :=
  { commits := [initialCommit], branches := [("main", initialCommit)] }

/-- A commit created or pushed on `main`: each successfully processed
source entry ends with `git commit` and `git push origin main`
(`clone_source_repo_as_subtree`, `create_audit_repo.py:542-544`), the
submodule consolidation may push a `.gitmodules` commit
(`merge_submodules`, `create_audit_repo.py:376-378`), and
`add_issue_template_to_repo` creates `finding.md` through the GitHub
contents API (`create_audit_repo.py:751`), which commits on the default
branch. Each prepends the new commit to the history `repo.get_commits()`
returns and advances `main`. -/
def pushMainCommit (r : RemoteRepo) (c : Nat) : RemoteRepo :=
  { commits := c :: r.commits,
    branches := r.branches.map (fun b => if b.1 = "main" then (b.1, c) else b) }

/-- The state of the remote repository just before branch creation
(`_create_audit_repo`, `create_audit_repo.py:162-185`): the initial
commit, one merge commit per processed source entry, an optional
`.gitmodules` consolidation commit (pushed only when submodule
declarations were found), and the always-performed issue-template commit
of `add_issue_template_to_repo` (line 183; on a freshly created
repository `finding.md` never pre-exists, so `create_file` runs).
`replace_labels_in_repo` (line 184) creates no commits. -/
def repo_after_pipeline (initialCommit : Nat) (sourceCommits : List Nat)
    (gitmodulesCommit : Option Nat) (issueTemplateCommit : Nat) : RemoteRepo :=
  pushMainCommit
    (match gitmodulesCommit with
     | some c =>
       pushMainCommit
         (sourceCommits.foldl pushMainCommit (initialize_repo initialCommit)) c
     | none => sourceCommits.foldl pushMainCommit (initialize_repo initialCommit))
    issueTemplateCommit

/-- The branch phase of `_create_audit_repo`
(`create_audit_repo.py:183-186`), in the run where every ref creation
succeeds: the auditor branches and then the report branch are created at
`repo.get_commits()[0].sha`, the head of the commit list as it stands at
that moment (no commit is pushed between the two calls at lines 185 and
186, so both use the same sha). -/
def audit_repo_branch_run (initialCommit : Nat) (sourceCommits : List Nat)
    (gitmodulesCommit : Option Nat) (issueTemplateCommit : Nat)
    (auditors : List String) : RemoteRepo :=
  let r := repo_after_pipeline initialCommit sourceCommits gitmodulesCommit
    issueTemplateCommit
  let head := r.commits.headD 0
  { r with
    branches := r.branches
      ++ auditors.map (fun a => ("audit/" ++ a, head)) ++ [("report", head)] }

/-- The root commit of the repository: the last entry of the newest-first
commit list. -/
def rootCommit (r : RemoteRepo) : Nat := r.commits.getLastD 0

/-- Pushing commits on `main` only prepends to the remote history. -/
theorem foldl_pushMainCommit_commits (sourceCommits : List Nat) :
    ∀ (r : RemoteRepo),
      (sourceCommits.foldl pushMainCommit r).commits
        = sourceCommits.reverse ++ r.commits := by
  induction sourceCommits with
  | nil => intro r; rfl
  | cons c rest ih =>
    intro r
    rw [List.foldl_cons, ih]
    simp [pushMainCommit]

/-- The history just before branch creation: the issue-template commit on
top of the optional `.gitmodules` commit, the source-merge commits, and
the initial commit. -/
theorem repo_after_pipeline_commits (initialCommit : Nat)
    (sourceCommits : List Nat) (gitmodulesCommit : Option Nat)
    (issueTemplateCommit : Nat) :
    (repo_after_pipeline initialCommit sourceCommits gitmodulesCommit
        issueTemplateCommit).commits
      = issueTemplateCommit
          :: (gitmodulesCommit.toList ++ (sourceCommits.reverse ++ [initialCommit])) := by
  cases gitmodulesCommit with
  | none =>
    simp [repo_after_pipeline, pushMainCommit, foldl_pushMainCommit_commits,
      initialize_repo]
  | some c =>
    simp [repo_after_pipeline, pushMainCommit, foldl_pushMainCommit_commits,
      initialize_repo]

/-- C2 counterexample: with one merged source entry (commit 1), no
`.gitmodules` commit and the issue-template commit 2, the auditor branch
points at commit 2 — the head at branch-creation time, which is the
issue-template commit — and neither at the root commit 0 nor at the merge
commit 1, contradicting the claim that every auditor branch is initialized
at the root commit of the target repository. -/
theorem auditor_branches_counterexample :
    ("audit/alice", 2) ∈ (audit_repo_branch_run 0 [1] none 2 ["alice"]).branches
    ∧ rootCommit (audit_repo_branch_run 0 [1] none 2 ["alice"]) = 0
    ∧ ("audit/alice", 0) ∉ (audit_repo_branch_run 0 [1] none 2 ["alice"]).branches
    ∧ ("audit/alice", 1) ∉ (audit_repo_branch_run 0 [1] none 2 ["alice"]).branches := by
  refine ⟨by decide, by decide, by decide, by decide⟩

/-- C2 (amended): after the run, every auditor branch `audit/<name>` and
the report branch exist and point at one and the same commit — the head of
the integration branch at branch-creation time, which is the commit
created by installing the issue template, sitting on top of the optional
`.gitmodules` consolidation commit and the source-merge commits. The root
commit of the repository remains the initial commit, distinct from the
branch commit in any real run. -/
theorem auditor_branches_amended :
    ∀ (initialCommit : Nat) (sourceCommits : List Nat)
      (gitmodulesCommit : Option Nat) (issueTemplateCommit : Nat)
      (auditors : List String),
      (∀ a ∈ auditors,
        ("audit/" ++ a, issueTemplateCommit)
          ∈ (audit_repo_branch_run initialCommit sourceCommits gitmodulesCommit
              issueTemplateCommit auditors).branches)
      ∧ ("report", issueTemplateCommit)
          ∈ (audit_repo_branch_run initialCommit sourceCommits gitmodulesCommit
              issueTemplateCommit auditors).branches
      ∧ (audit_repo_branch_run initialCommit sourceCommits gitmodulesCommit
          issueTemplateCommit auditors).commits.headD 0 = issueTemplateCommit
      ∧ rootCommit (audit_repo_branch_run initialCommit sourceCommits
          gitmodulesCommit issueTemplateCommit auditors) = initialCommit := by
  intro initialCommit sourceCommits gitmodulesCommit issueTemplateCommit auditors
  have hhead :
      (repo_after_pipeline initialCommit sourceCommits gitmodulesCommit
          issueTemplateCommit).commits.headD 0 = issueTemplateCommit := by
    rw [repo_after_pipeline_commits]
    rfl
  refine ⟨?_, ?_, ?_, ?_⟩
  · intro a ha
    simp only [audit_repo_branch_run]
    rw [hhead]
    refine List.mem_append.mpr (Or.inl ?_)
    refine List.mem_append.mpr (Or.inr ?_)
    exact List.mem_map.mpr ⟨a, ha, rfl⟩
  · simp only [audit_repo_branch_run]
    rw [hhead]
    refine List.mem_append.mpr (Or.inr ?_)
    simp
  · simp only [audit_repo_branch_run]
    exact hhead
  · simp only [rootCommit, audit_repo_branch_run]
    rw [repo_after_pipeline_commits]
    have hshape :
        issueTemplateCommit
            :: (gitmodulesCommit.toList ++ (sourceCommits.reverse ++ [initialCommit]))
          = (issueTemplateCommit :: (gitmodulesCommit.toList ++ sourceCommits.reverse))
              ++ [initialCommit] := by
      simp
    rw [hshape]
    exact List.getLastD_concat _ _ _

/-- Witness for `auditor_branches_amended` at a concrete run with two
auditors, two merged sources, a `.gitmodules` commit and the issue-template
commit. -/
theorem auditor_branches_amended_witness :
    ("audit/bob", 4)
      ∈ (audit_repo_branch_run 0 [1, 2] (some 3) 4 ["alice", "bob"]).branches :=
  (auditor_branches_amended 0 [1, 2] (some 3) 4 ["alice", "bob"]).1 "bob" (by decide)

-- Submodule consolidation (`merge_submodules`, C3).

/-- The character-wise effect of Python `subtree_path.replace('/', '_')`
(`create_audit_repo.py:348`): with a single-character needle, `replace`
rewrites each matching character independently. -/
def slashToUnderscore (p : List Char) : List Char :=
  p.map (fun c => if c = '/' then '_' else c)

/-- The name rewriting of `merge_submodules` for a non-root `.gitmodules`
file found at subtree path `P` (`create_audit_repo.py:348`):
`f"{subtree_path.replace('/', '_')}_{submodule_name}"`. -/
def uniqueSubmoduleName (subtreePath name : List Char) : List Char :=
  slashToUnderscore subtreePath ++ '_' :: name

/-- The path rewriting of `merge_submodules`
(`create_audit_repo.py:349`): `os.path.join(subtree_path,
configs["path"]).replace("\\", "/")`, which for relative POSIX paths is
the subtree path, a forward slash, and the original path. -/
def rewrittenSubmodulePath (subtreePath origPath : List Char) : List Char :=
  subtreePath ++ '/' :: origPath

/-- Insertion into an association list with Python-dict semantics
(`root_config[full_key] = ...`): an existing key keeps its position and
receives the new value, a new key is appended at the end. -/
def dictInsert (k v : List Char) :
    List (List Char × List Char) → List (List Char × List Char)
  | [] => [(k, v)]
  | (k', v') :: rest =>
    if k' = k then (k', v) :: rest else (k', v') :: dictInsert k v rest

/-- Processing one non-root `.gitmodules` file at subtree path `P`: each of
its submodule entries `(name, path)` is stored in the accumulated root
configuration under the rewritten unique name with the rewritten path
(`create_audit_repo.py:338-354`). -/
def insertFileEntries (P : List Char) (entries : List (List Char × List Char))
    (acc : List (List Char × List Char)) : List (List Char × List Char) :=
  entries.foldl (fun acc e =>
    dictInsert (uniqueSubmoduleName P e.1) (rewrittenSubmodulePath P e.2) acc) acc

/-- Embedding of the `root_config` accumulation of `merge_submodules`
(`create_audit_repo.py:288-383`), restricted to the non-root
`.gitmodules` files (for the root file, names and paths pass through
unchanged) and to their `path` values: every file, in discovery order,
contributes each of its submodule entries; colliding keys silently
overwrite because `root_config` is a dict. -/
def merge_submodules
    (files : List (List Char × List (List Char × List Char))) :
    List (List Char × List Char) :=
  files.foldl (fun acc f => insertFileEntries f.1 f.2 acc) []

/-- C3 counterexample: the claim promises globally unique consolidated names
even for colliding original names. Two non-root files at the distinct
subtree paths `a_b` and `a/b`, each declaring a submodule named `lib`,
produce the same consolidated key `a_b_lib`, and the consolidated
configuration retains only one entry (the later path wins). -/
theorem merge_submodules_counterexample :
    uniqueSubmoduleName "a_b".toList "lib".toList
        = uniqueSubmoduleName "a/b".toList "lib".toList
    ∧ "a_b".toList ≠ "a/b".toList
    ∧ merge_submodules
        [("a_b".toList, [("lib".toList, "x".toList)]),
         ("a/b".toList, [("lib".toList, "y".toList)])]
      = [("a_b_lib".toList, "a/b/y".toList)] := by
  refine ⟨by decide, by decide, by decide⟩

/-- Splitting at a separator character that occurs in neither left part is
unambiguous. -/
theorem sep_split :
    ∀ (x x' y y' : List Char) (c : Char), c ∉ x → c ∉ x' →
      x ++ c :: y = x' ++ c :: y' → x = x' ∧ y = y' := by
  intro x
  induction x with
  | nil =>
    intro x' y y' c _ hx' heq
    cases x' with
    | nil => simpa using heq
    | cons d x'' =>
      simp only [List.nil_append, List.cons_append, List.cons.injEq] at heq
      exact absurd (heq.1 ▸ List.mem_cons_self d x'') hx'
  | cons d x'' ih =>
    intro x' y y' c hx hx' heq
    cases x' with
    | nil =>
      simp only [List.cons_append, List.nil_append, List.cons.injEq] at heq
      exact absurd (heq.1.symm ▸ List.mem_cons_self d x'') hx
    | cons e x''' =>
      simp only [List.cons_append, List.cons.injEq] at heq
      obtain ⟨rfl, heq'⟩ := heq
      have hx2 : c ∉ x'' := fun h => hx (List.mem_cons_of_mem _ h)
      have hx3 : c ∉ x''' := fun h => hx' (List.mem_cons_of_mem _ h)
      obtain ⟨h1, h2⟩ := ih x''' y y' c hx2 hx3 heq'
      exact ⟨by rw [h1], h2⟩

/-- Replacing slashes by underscores is injective on underscore-free
strings. -/
theorem slashToUnderscore_inj :
    ∀ (p q : List Char), '_' ∉ p → '_' ∉ q →
      slashToUnderscore p = slashToUnderscore q → p = q := by
  intro p
  induction p with
  | nil =>
    intro q _ _ h
    cases q with
    | nil => rfl
    | cons d q' => simp [slashToUnderscore] at h
  | cons c p' ih =>
    intro q hp hq h
    cases q with
    | nil => simp [slashToUnderscore] at h
    | cons d q' =>
      simp only [slashToUnderscore, List.map_cons, List.cons.injEq] at h
      have hp' : '_' ∉ p' := fun hm => hp (List.mem_cons_of_mem _ hm)
      have hq' : '_' ∉ q' := fun hm => hq (List.mem_cons_of_mem _ hm)
      have hc : c ≠ '_' := fun hc => hp (hc ▸ List.mem_cons_self c p')
      have hd : d ≠ '_' := fun hd => hq (hd ▸ List.mem_cons_self d q')
      have hcd : c = d := by
        have h1 := h.1
        by_cases hcs : c = '/'
        · by_cases hds : d = '/'
          · rw [hcs, hds]
          · rw [if_pos hcs, if_neg hds] at h1
            exact absurd h1.symm hd
        · by_cases hds : d = '/'
          · rw [if_neg hcs, if_pos hds] at h1
            exact absurd h1 hc
          · rw [if_neg hcs, if_neg hds] at h1
            exact h1
      rw [hcd, ih q' hp' hq' h.2]

/-- The inserted key is present after a dict insertion. -/
theorem mem_dictInsert_self :
    ∀ (m : List (List Char × List Char)) (k v : List Char),
      ∃ w, (k, w) ∈ dictInsert k v m := by
  intro m k v
  induction m with
  | nil => exact ⟨v, by simp [dictInsert]⟩
  | cons e rest ih =>
    obtain ⟨k', v'⟩ := e
    by_cases h : k' = k
    · subst h
      exact ⟨v, by simp [dictInsert]⟩
    · obtain ⟨w, hw⟩ := ih
      exact ⟨w, by simp [dictInsert, h, hw]⟩

/-- Every key present before a dict insertion is present afterwards
(possibly with an updated value). -/
theorem mem_dictInsert_of_mem :
    ∀ (m : List (List Char × List Char)) (k v k' v' : List Char),
      (k', v') ∈ m → ∃ w, (k', w) ∈ dictInsert k v m := by
  intro m k v
  induction m with
  | nil => intro k' v' h; cases h
  | cons e rest ih =>
    obtain ⟨k₀, v₀⟩ := e
    intro k' v' hmem
    by_cases h : k₀ = k
    · subst h
      rcases List.mem_cons.mp hmem with heq | htail
      · obtain ⟨rfl, rfl⟩ := Prod.mk.injEq .. ▸ heq
        exact ⟨v, by simp [dictInsert]⟩
      · exact ⟨v', by simp [dictInsert, htail]⟩
    · rcases List.mem_cons.mp hmem with heq | htail
      · exact ⟨v', by simp [dictInsert, h, heq]⟩
      · obtain ⟨w, hw⟩ := ih k' v' htail
        exact ⟨w, by simp [dictInsert, h, hw]⟩

/-- Keys survive the processing of a whole `.gitmodules` file. -/
theorem mem_insertFileEntries_of_mem :
    ∀ (entries : List (List Char × List Char)) (P : List Char)
      (acc : List (List Char × List Char)) (k v : List Char),
      (k, v) ∈ acc → ∃ w, (k, w) ∈ insertFileEntries P entries acc := by
  intro entries P
  induction entries with
  | nil => intro acc k v h; exact ⟨v, h⟩
  | cons e rest ih =>
    intro acc k v h
    obtain ⟨w, hw⟩ := mem_dictInsert_of_mem acc
      (uniqueSubmoduleName P e.1) (rewrittenSubmodulePath P e.2) k v h
    exact ih _ k w hw

/-- Each entry of a processed `.gitmodules` file is recorded under its
rewritten unique name. -/
theorem mem_insertFileEntries_self :
    ∀ (entries : List (List Char × List Char)) (P : List Char)
      (acc : List (List Char × List Char)) (n p : List Char),
      (n, p) ∈ entries →
      ∃ w, (uniqueSubmoduleName P n, w) ∈ insertFileEntries P entries acc := by
  intro entries P
  induction entries with
  | nil => intro acc n p h; cases h
  | cons e rest ih =>
    intro acc n p hmem
    rcases List.mem_cons.mp hmem with heq | htail
    · subst heq
      obtain ⟨w, hw⟩ := mem_dictInsert_self acc
        (uniqueSubmoduleName P n) (rewrittenSubmodulePath P p)
      exact mem_insertFileEntries_of_mem rest P _ _ w hw
    · exact ih _ n p htail

/-- Keys survive the processing of the remaining `.gitmodules` files. -/
theorem mem_foldl_files_of_mem :
    ∀ (files : List (List Char × List (List Char × List Char)))
      (acc : List (List Char × List Char)) (k v : List Char),
      (k, v) ∈ acc →
      ∃ w, (k, w) ∈ files.foldl (fun acc f => insertFileEntries f.1 f.2 acc) acc := by
  intro files
  induction files with
  | nil => intro acc k v h; exact ⟨v, h⟩
  | cons f rest ih =>
    intro acc k v h
    obtain ⟨w, hw⟩ := mem_insertFileEntries_of_mem f.2 f.1 acc k v h
    exact ih _ k w hw

/-- Every entry of every processed file ends up recorded under its
rewritten unique name, whatever the starting accumulator. -/
theorem mem_foldl_files_self :
    ∀ (files : List (List Char × List (List Char × List Char)))
      (acc : List (List Char × List Char)) (P : List Char)
      (entries : List (List Char × List Char)) (n p : List Char),
      (P, entries) ∈ files → (n, p) ∈ entries →
      ∃ w, (uniqueSubmoduleName P n, w)
        ∈ files.foldl (fun acc f => insertFileEntries f.1 f.2 acc) acc := by
  intro files
  induction files with
  | nil => intro acc P entries n p h _; cases h
  | cons f rest ih =>
    intro acc P entries n p hfile hentry
    rcases List.mem_cons.mp hfile with heq | htail
    · subst heq
      rw [List.foldl_cons]
      obtain ⟨w, hw⟩ := mem_insertFileEntries_self entries P acc n p hentry
      exact mem_foldl_files_of_mem rest _ _ w hw
    · rw [List.foldl_cons]
      exact ih _ P entries n p htail hentry

/-- C3 (amended): for every submodule entry of a non-root
`.gitmodules` file at subtree path `P`, the consolidated configuration
records a value under the key `<P with slashes replaced by underscores>_<name>`
with paths rewritten to `<P>/<original path>`; the resulting keys are
guaranteed distinct for distinct `(subtree path, name)` pairs — and never
collide with a bare original name — provided neither the subtree paths nor
the names contain an underscore (without that proviso distinct sources can
collide, as the counterexample `a_b`/`a/b` shows, the later entry
overwriting the earlier one). The spec's own scenario — two sources with
colliding submodule names `lib` under subfolders `repoA` and `repoB` —
yields two distinct keys, neither equal to bare `lib`, each with its path
prefixed by its subfolder. -/
theorem merge_submodules_naming_amended :
    (∀ P₁ n₁ P₂ n₂ : List Char,
        '_' ∉ P₁ → '_' ∉ n₁ → '_' ∉ P₂ → '_' ∉ n₂ → (P₁, n₁) ≠ (P₂, n₂) →
        uniqueSubmoduleName P₁ n₁ ≠ uniqueSubmoduleName P₂ n₂)
    ∧ (∀ P n : List Char, P ≠ [] → uniqueSubmoduleName P n ≠ n)
    ∧ (∀ (files : List (List Char × List (List Char × List Char)))
        (P : List Char) (entries : List (List Char × List Char))
        (n p : List Char),
        (P, entries) ∈ files → (n, p) ∈ entries →
        ∃ w, (uniqueSubmoduleName P n, w) ∈ merge_submodules files)
    ∧ merge_submodules
        [("repoA".toList, [("lib".toList, "x".toList)]),
         ("repoB".toList, [("lib".toList, "y".toList)])]
      = [("repoA_lib".toList, "repoA/x".toList),
         ("repoB_lib".toList, "repoB/y".toList)] := by
  refine ⟨?_, ?_, ?_, by decide⟩
  · intro P₁ n₁ P₂ n₂ hP₁ hn₁ hP₂ hn₂ hne heq
    have hrev := congrArg List.reverse heq
    simp only [uniqueSubmoduleName, List.reverse_append, List.reverse_cons,
      List.append_assoc, List.singleton_append] at hrev
    obtain ⟨h1, h2⟩ := sep_split n₁.reverse n₂.reverse
      (slashToUnderscore P₁).reverse (slashToUnderscore P₂).reverse '_'
      (by simpa using hn₁) (by simpa using hn₂) hrev
    have hn : n₁ = n₂ := List.reverse_injective h1
    have hA : slashToUnderscore P₁ = slashToUnderscore P₂ :=
      List.reverse_injective h2
    have hP : P₁ = P₂ := slashToUnderscore_inj P₁ P₂ hP₁ hP₂ hA
    exact hne (by rw [hP, hn])
  · intro P n hP h
    have hl := congrArg List.length h
    simp only [uniqueSubmoduleName, slashToUnderscore, List.length_append,
      List.length_map, List.length_cons] at hl
    have : P.length ≠ 0 := fun h0 => hP (List.length_eq_zero.mp h0)
    omega
  · intro files P entries n p hfile hentry
    exact mem_foldl_files_self files [] P entries n p hfile hentry

/-- Witness for `merge_submodules_naming_amended`: distinct underscore-free
subfolders with the same original name give distinct keys. -/
theorem merge_submodules_naming_amended_witness :
    uniqueSubmoduleName "repoA".toList "lib".toList
      ≠ uniqueSubmoduleName "repoB".toList "lib".toList :=
  merge_submodules_naming_amended.1 "repoA".toList "lib".toList
    "repoB".toList "lib".toList (by decide) (by decide) (by decide) (by decide)
    (by decide)

-- Existing-directory removal (`clone_source_repo_as_subtree`, C5).

/-- Outcome of the `subprocess.run` call that force-removes an existing
destination directory (`rm -rf .../rmdir /S /Q`, run with `shell=True,
check=False`): the command may exit 0, exit non-zero, or the call itself
may raise (e.g. a spawn failure). -/
inductive RmOutcome where
  | exitZero : RmOutcome
  | exitNonzero : RmOutcome
  | spawnError : RmOutcome
deriving DecidableEq

/-- Embedding of the destination-directory handling of
`clone_source_repo_as_subtree` together with the `git subtree add` step
that follows it (`create_audit_repo.py:460-533`). When the destination
directory exists, the removal command runs with `check=False`: an
exception from `subprocess.run` itself (a spawn failure) reaches the
`except` clause and raises at line 470; a removal command that runs and
exits non-zero raises nothing there, but it leaves the directory in place
(`rm -rf` removes the directory itself last, so a failure keeps the top
directory), and `git subtree add --prefix <dir>` then refuses the existing
prefix, so the return-code check at lines 519-525 raises and the entry
aborts at line 533. `addOk` abstracts the other failure sources of the
subtree add (connectivity, unknown commit) on the stale-free path. -/
def clone_entry_removal_and_add (dirExists : Bool) (rm : RmOutcome)
    (addOk : Bool) : Except String Unit :=
  if dirExists then
    match rm with
    | RmOutcome.spawnError =>
      Except.error
        "Cannot add subtree: directory exists and could not be removed"
    | RmOutcome.exitNonzero =>
      Except.error "Failed to add subtree: prefix already exists"
    | RmOutcome.exitZero =>
      if addOk then Except.ok ()
      else Except.error "Failed to add subtree"
  else if addOk then Except.ok ()
  else Except.error "Failed to add subtree"

/-- C5: when a source entry's destination subdirectory already exists and
its forced removal fails — the removal command exits non-zero, or cannot
be run at all — processing of that entry raises and never completes a
merge over the stale directory: a spawn failure raises through the
`except` clause, and a non-zero exit leaves the directory in place, which
makes the subsequent `git subtree add` refuse its prefix and the
return-code check raise. The entry succeeds only when nothing had to be
removed or the removal succeeded, and the subtree add itself worked. -/
theorem removal_failure_fatal_spec :
    (∀ (rm : RmOutcome) (addOk : Bool), rm ≠ RmOutcome.exitZero →
      ∃ msg, clone_entry_removal_and_add true rm addOk = Except.error msg)
    ∧ (∀ (dirExists : Bool) (rm : RmOutcome) (addOk : Bool),
        clone_entry_removal_and_add dirExists rm addOk = Except.ok () →
        addOk = true ∧ (dirExists = true → rm = RmOutcome.exitZero)) := by
  constructor
  · intro rm addOk hrm
    cases rm with
    | exitZero => exact absurd rfl hrm
    | exitNonzero => exact ⟨_, rfl⟩
    | spawnError => exact ⟨_, rfl⟩
  · intro dirExists rm addOk h
    cases dirExists with
    | false =>
      cases addOk with
      | true => exact ⟨rfl, fun hf => by cases hf⟩
      | false => cases h
    | true =>
      cases rm with
      | exitZero =>
        cases addOk with
        | true => exact ⟨rfl, fun _ => rfl⟩
        | false => cases h
      | exitNonzero => cases h
      | spawnError => cases h

/-- Witness for `removal_failure_fatal_spec`: a failing removal command
(non-zero exit) aborts the entry. -/
theorem removal_failure_fatal_spec_witness :
    ∃ msg, clone_entry_removal_and_add true RmOutcome.exitNonzero true
      = Except.error msg :=
  removal_failure_fatal_spec.1 RmOutcome.exitNonzero true (by decide)

-- Config validation (`_create_audit_repo`, C7).

/-- One entry of the `repositories` list of the job config. -/
structure RepoCfgEntry where
  sourceUrl : Option String
  commitHash : Option String
  subFolder : Option String
deriving DecidableEq

/-- The job config as read from `config.json`; absent JSON keys are
`none`. -/
structure JobConfig where
  targetRepoName : Option String
  projectTitle : Option String
  auditors : Option String
  repositories : List RepoCfgEntry
deriving DecidableEq

/-- A string config field is falsy in Python when the key is missing or the
value is empty. -/
def falsyStr : Option String → Bool
  | none => true
  | some s => s.isEmpty

/-- Externally visible side effects of the pipeline, in program order. -/
inductive Effect where
  | repoCreated : Effect
  | initialCommitPushed : Effect
  | subtreePushed : Effect
  | branchCreated : Effect
  | reportConfigured : Effect
deriving DecidableEq

/-- Embedding of `_create_audit_repo` (`create_audit_repo.py:135-199`) at
the granularity of C7: the config file is read (`none` when absent), the
usage-error checks run in source order — missing file, empty repository
list, falsy target repo name or auditors, then missing token/organization —
and only past them does the pipeline create the remote repository, push
commits and configure branches. The second component is the trace of
external side effects performed. -/
def create_audit_repo_run (config : Option JobConfig)
    (githubToken organization : Option String) :
    Except String Unit × List Effect :=
  match config with
  | none => (Except.error "Config file not found", [])
  | some cfg =>
    if cfg.repositories.isEmpty then
      (Except.error "No repositories specified in the config file.", [])
    else if falsyStr cfg.targetRepoName || falsyStr cfg.auditors then
      (Except.error
        "Target repo name and auditors must be provided in the config file.", [])
    else if falsyStr githubToken || falsyStr organization then
      (Except.error
        "GitHub token and organization must be provided either through environment variables or as options.",
       [])
    else
      (Except.ok (),
       [Effect.repoCreated, Effect.initialCommitPushed, Effect.subtreePushed,
        Effect.branchCreated, Effect.reportConfigured])

/-- C7: when the config file is absent, or the repository list is empty, or
the target repo name or the auditors field is missing or empty, the run
fails with a usage error and its effect trace is empty — no repository is
created, no commit is pushed, no other external mutation happens. -/
theorem config_validation_spec :
    ∀ (config : Option JobConfig) (githubToken organization : Option String),
      (config = none
        ∨ ∃ cfg, config = some cfg
            ∧ (cfg.repositories = []
              ∨ falsyStr cfg.targetRepoName = true
              ∨ falsyStr cfg.auditors = true)) →
      (∃ msg, (create_audit_repo_run config githubToken organization).1
          = Except.error msg)
      ∧ (create_audit_repo_run config githubToken organization).2 = [] := by
  intro config githubToken organization h
  rcases h with rfl | ⟨cfg, rfl, hcase⟩
  · exact ⟨⟨_, rfl⟩, rfl⟩
  · rcases hcase with hrep | hname | haud
    · have h1 : cfg.repositories.isEmpty = true := by simp [hrep]
      simp [create_audit_repo_run, h1]
    · by_cases h1 : cfg.repositories.isEmpty
      · simp [create_audit_repo_run, h1]
      · simp [create_audit_repo_run, h1, hname]
    · by_cases h1 : cfg.repositories.isEmpty
      · simp [create_audit_repo_run, h1]
      · simp [create_audit_repo_run, h1, haud]

/-- Witness for `config_validation_spec`: a config with an empty repository
list produces an error and an empty effect trace. -/
theorem config_validation_spec_witness :
    (create_audit_repo_run
      (some { targetRepoName := some "audit-target", projectTitle := none,
              auditors := some "alice bob", repositories := [] })
      (some "tok") (some "org")).2 = [] :=
  (config_validation_spec _ _ _ (Or.inr ⟨_, rfl, Or.inl rfl⟩)).2

-- Credential scrubbing (`setup_git_credentials`/`cleanup_git_credentials`, C9).

/-- The credential line appended by `setup_git_credentials`
(`create_audit_repo.py:54-63`): `https://<token>@github.com`. -/
def credLine (github_token : List Char) : List Char :=
  httpsStr ++ github_token ++ "@github.com".toList

/-- Embedding of `setup_git_credentials`: the credential line is appended
to the persisted credential-helper file. -/
def setup_git_credentials (file : List (List Char)) (github_token : List Char) :
    List (List Char) :=
  file ++ [credLine github_token]

/-- Python's substring test `needle in line`, by scanning: the needle is a
prefix of the string or occurs in its tail. -/
def containsSubstring (needle : List Char) : List Char → Bool
  | [] => needle.isEmpty
  | c :: rest => List.isPrefixOf needle (c :: rest) || containsSubstring needle rest

/-- The substring test agrees with the infix relation. -/
theorem containsSubstring_iff (needle : List Char) :
    ∀ (l : List Char), containsSubstring needle l = true ↔ needle <:+: l := by
  intro l
  induction l with
  | nil =>
    simp only [containsSubstring, List.isEmpty_iff, List.infix_nil]
  | cons c rest ih =>
    simp only [containsSubstring, Bool.or_eq_true, ih, List.infix_cons_iff,
      List.isPrefixOf_iff_prefix]

/-- Embedding of `cleanup_git_credentials` (`create_audit_repo.py:66-79`):
the file is rewritten keeping only the lines that do not contain the
token. -/
def cleanup_git_credentials (file : List (List Char)) (github_token : List Char) :
    List (List Char) :=
  file.filter (fun l => !(containsSubstring github_token l))

/-- Failure points of the guarded body shared by
`clone_source_repo_as_subtree` (`create_audit_repo.py:485-536`) and the
report-template `add_subtree` (`create_audit_repo.py:608-654`): the
`ls-remote` connectivity check, the fetch, the `git subtree add`, and the
post-merge file verification. -/
inductive SubtreeStep where
  | lsRemoteCheck : SubtreeStep
  | fetchStep : SubtreeStep
  | subtreeAdd : SubtreeStep
  | verifyStep : SubtreeStep
deriving DecidableEq

/-- The credential lifecycle common to `clone_source_repo_as_subtree` and
`add_subtree`: `setup_git_credentials` appends the token line before the
`try` block; whether the body returns normally (`failure = none`) or raises
at any step (`failure = some step`), the `finally` clause runs
`cleanup_git_credentials` on the file. The pair returned is the body's
result and the final credential file. -/
def subtree_credential_flow (file : List (List Char)) (github_token : List Char)
    (failure : Option SubtreeStep) : Except String Unit × List (List Char) :=
  let file1 := setup_git_credentials file github_token
  let result := match failure with
    | some _ => Except.error "Failed to add subtree"
    | none => Except.ok ()
  (result, cleanup_git_credentials file1 github_token)

/-- C9: however the guarded body of the subtree operations terminates —
normal return or an exception at any step after credential setup — the
cleanup routine runs on the persisted credential file: the final file is
exactly the cleanup of the file as set up, the injected token line is gone,
and no remaining line contains the token at all. -/
theorem credential_cleanup_spec :
    ∀ (file : List (List Char)) (github_token : List Char)
      (failure : Option SubtreeStep),
      (subtree_credential_flow file github_token failure).2
          = cleanup_git_credentials (setup_git_credentials file github_token)
              github_token
      ∧ credLine github_token ∉ (subtree_credential_flow file github_token failure).2
      ∧ ∀ l ∈ (subtree_credential_flow file github_token failure).2,
          containsSubstring github_token l = false := by
  intro file github_token failure
  have hinf : containsSubstring github_token (credLine github_token) = true := by
    rw [containsSubstring_iff]
    exact ⟨httpsStr, "@github.com".toList, by simp [credLine]⟩
  refine ⟨rfl, ?_, ?_⟩
  · intro hmem
    have := (List.mem_filter.mp hmem).2
    rw [hinf] at this
    exact absurd this (by decide)
  · intro l hmem
    have := (List.mem_filter.mp hmem).2
    revert this
    cases h : containsSubstring github_token l <;> simp

/-- Witness for `credential_cleanup_spec`: on a failing subtree add, the
injected line is scrubbed. -/
theorem credential_cleanup_spec_witness :
    credLine "tok".toList ∉
      (subtree_credential_flow [] "tok".toList (some SubtreeStep.subtreeAdd)).2 :=
  (credential_cleanup_spec [] "tok".toList (some SubtreeStep.subtreeAdd)).2.1

-- Report metadata patching (`add_subtree`, C6).

/-- The characters Python `\s` matches: space, tab, newline, vertical tab,
form feed, carriage return. In particular `\s` matches the newline, so an
anchored `^<key>\s*=.*$` under `re.MULTILINE` can match across a line
boundary. -/
def isPyWhitespace (c : Char) : Bool :=
  c = ' ' || c = '\t' || c = '\n' || c = '\x0b' || c = '\x0c' || c = '\r'

/-- A line matches the anchored pattern `^<key>\s*=.*$` under `re.MULTILINE`
exactly when it starts with the literal key, followed by optional
whitespace and an equals sign; `.*$` then spans the rest of the line. -/
def matchesKeyEq (key l : List Char) : Bool :=
  List.isPrefixOf key l
    && ((List.dropWhile (fun c => isPyWhitespace c)
          (List.drop key.length l)).head? == some '=')

/-- One `re.sub(rf"^<key>\s*=.*$", repl, text, flags=re.MULTILINE)` on a text
split into its lines: every matching line is replaced whole by `repl`,
every other line is kept. This is the line-level reading of the multiline
substitution; it is exact whenever the replacement contains no newline. -/
def subLines (key repl : List Char) (ls : List (List Char)) : List (List Char) :=
  ls.map (fun l => if matchesKeyEq key l then repl else l)

/-- The literal `project_github<sfx>`. -/
def pgKey (sfx : List Char) : List Char := "project_github".toList ++ sfx

/-- The literal `commit_hash<sfx>`. -/
def chKey (sfx : List Char) : List Char := "commit_hash".toList ++ sfx

/-- The literal `private_github`. -/
def pvKey : List Char := "private_github".toList

/-- The literal `" = "` placed between key and value in every replacement
line. -/
def eqSep : List Char := [' ', '=', ' ']

/-- The two substitutions performed for one source entry with key suffix
`sfx` (`create_audit_repo.py:676-689`): `project_github<sfx>` is rewritten
to the entry's source URL, `commit_hash<sfx>` to its commit hash. -/
def repoSubsFor (sfx : List Char) (entry : List Char × List Char) :
    List (List Char × List Char) :=
  [(pgKey sfx, pgKey sfx ++ eqSep ++ entry.1),
   (chKey sfx, chKey sfx ++ eqSep ++ entry.2)]

/-- The target repository URL written into `private_github`
(`create_audit_repo.py:691-696`):
`https://github.com/<organization>/<target_repo_name>.git`. -/
def target_private_url (organization target_repo_name : List Char) : List Char :=
  "https://github.com/".toList ++ organization ++ '/' :: target_repo_name
    ++ ".git".toList

/-- The ordered key/replacement pairs of the `summary_information.conf`
patching (`create_audit_repo.py:676-696`): `enumerate(repositories[:3],
start=1)` caps the loop at the first three entries with suffixes
(empty), `_2`, `_3`; after them `private_github` is rewritten to the target
repository URL. -/
def summarySubs (repos : List (List Char × List Char)) (privateUrl : List Char) :
    List (List Char × List Char) :=
  (List.zip [[], ['_', '2'], ['_', '3']] (repos.take 3)).flatMap
    (fun se => repoSubsFor se.1 se.2)
  ++ [(pvKey, pvKey ++ eqSep ++ privateUrl)]

/-- Embedding of the `summary_information.conf` patching block of
`add_subtree` (`create_audit_repo.py:669-699`) on the file's lines: the
substitutions run in source order over the whole file. -/
def patch_summary_information (repos : List (List Char × List Char))
    (organization target_repo_name : List Char) (ls : List (List Char)) :
    List (List Char) :=
  (summarySubs repos (target_private_url organization target_repo_name)).foldl
    (fun ls kr => subLines kr.1 kr.2 ls) ls

/-- The effect of the substitution sequence on one line. -/
def applySubsLine (krs : List (List Char × List Char)) (l : List Char) :
    List Char :=
  krs.foldl (fun l kr => if matchesKeyEq kr.1 l then kr.2 else l) l

/-- A sequence of whole-line substitutions acts line by line. -/
theorem foldl_subLines_eq_map :
    ∀ (krs : List (List Char × List Char)) (ls : List (List Char)),
      krs.foldl (fun ls kr => subLines kr.1 kr.2 ls) ls
        = ls.map (applySubsLine krs) := by
  intro krs
  induction krs with
  | nil =>
    intro ls
    simp only [List.foldl_nil, applySubsLine]
    exact (List.map_id' ls).symm
  | cons kr rest ih =>
    intro ls
    rw [List.foldl_cons]
    rw [ih]
    unfold subLines
    rw [List.map_map]
    rfl

/-- A line matching none of the keys is left unchanged by the whole
substitution sequence. -/
theorem applySubsLine_id :
    ∀ (krs : List (List Char × List Char)) (l : List Char),
      (∀ kr ∈ krs, matchesKeyEq kr.1 l = false) → applySubsLine krs l = l := by
  intro krs
  induction krs with
  | nil => intro l _; rfl
  | cons kr rest ih =>
    intro l h
    have h1 := h kr (by simp)
    unfold applySubsLine
    rw [List.foldl_cons, h1]
    simp only [Bool.false_eq_true, if_false]
    exact ih l (fun kr' h' => h kr' (List.mem_cons_of_mem _ h'))

/-- A key matches no line that extends a string it neither prefixes nor is
prefixed by. -/
theorem matchesKeyEq_of_ne (k pre : List Char) (h1 : ¬ k <+: pre)
    (h2 : ¬ pre <+: k) : ∀ u, matchesKeyEq k (pre ++ u) = false := by
  intro u
  cases h : List.isPrefixOf k (pre ++ u) with
  | false => simp [matchesKeyEq, h]
  | true =>
    exfalso
    have hp : k <+: pre ++ u := List.isPrefixOf_iff_prefix.mp h
    by_cases hl : k.length ≤ pre.length
    · exact h1 (prefix_append_of_le_length hp hl)
    · have hk : k = pre ++ List.take (k.length - pre.length) u := by
        have := List.prefix_iff_eq_take.mp hp
        rw [List.take_append_eq_append_take,
          List.take_of_length_le (by omega)] at this
        exact this
      exact h2 ⟨List.take (k.length - pre.length) u, hk.symm⟩

/-- A key does not match a line where it is followed by a non-whitespace
character other than `=`. -/
theorem matchesKeyEq_key_cons_false (k : List Char) (c : Char) (mid : List Char)
    (hc : isPyWhitespace c = false) (hc2 : (c == '=') = false) :
    matchesKeyEq k (k ++ c :: mid) = false := by
  unfold matchesKeyEq
  have hdrop : List.drop k.length (k ++ c :: mid) = c :: mid :=
    List.drop_left k (c :: mid)
  rw [hdrop]
  have : List.dropWhile (fun c => isPyWhitespace c) (c :: mid) = c :: mid := by
    simp [List.dropWhile, hc]
  rw [this]
  simp [hc2]

/-- A matching key decomposes the line. -/
theorem eq_append_drop_of_matches (k l : List Char)
    (h : matchesKeyEq k l = true) : l = k ++ List.drop k.length l := by
  unfold matchesKeyEq at h
  have h1 : List.isPrefixOf k l = true := ((Bool.and_eq_true _ _).mp h).1
  exact (List.prefix_iff_eq_append.mp (List.isPrefixOf_iff_prefix.mp h1)).symm

/-- The substitution list for a run with at least three source entries, in
explicit form. -/
theorem summarySubs_eq (u₁ h₁ u₂ h₂ u₃ h₃ priv : List Char)
    (extra : List (List Char × List Char)) :
    summarySubs ((u₁, h₁) :: (u₂, h₂) :: (u₃, h₃) :: extra) priv =
      [(pgKey [], pgKey [] ++ eqSep ++ u₁),
       (chKey [], chKey [] ++ eqSep ++ h₁),
       (pgKey ['_', '2'], pgKey ['_', '2'] ++ eqSep ++ u₂),
       (chKey ['_', '2'], chKey ['_', '2'] ++ eqSep ++ h₂),
       (pgKey ['_', '3'], pgKey ['_', '3'] ++ eqSep ++ u₃),
       (chKey ['_', '3'], chKey ['_', '3'] ++ eqSep ++ h₃),
       (pvKey, pvKey ++ eqSep ++ priv)] := rfl

-- Text-level semantics of the anchored multiline substitution (C6).

/-- The Boolean test for "not a newline", used to delimit lines of the raw
text. -/
def notNl (c : Char) : Bool := !(c == '\n')

/-- Attempt of the regex `^<key>\s*=.*$` at a line start of the raw text:
if the key is present there, `\s*` greedily absorbs whitespace — including
newlines — and an `=` must follow; the match then extends to the end of
that line (`.*$`). Returns the remainder of the text after the match
(beginning with the terminating newline, if any), or `none` when the
pattern does not match at this position. Backtracking cannot rescue a
failed attempt: `=` is not a whitespace character, so the pattern matches
exactly when the first non-whitespace character after the key is `=`. -/
def keyEqMatchEnd (key t : List Char) : Option (List Char) :=
  if List.isPrefixOf key t then
    let r := List.dropWhile (fun c => isPyWhitespace c) (List.drop key.length t)
    if r.head? == some '=' then some (List.dropWhile notNl r) else none
  else none

/-- Embedding of `re.sub(rf"^<key>\s*=.*$", repl, text, flags=re.MULTILINE)`
on the raw text: the scanner stands at a line start (`^` matches only
there); on a match it emits the replacement and resumes after the match,
otherwise it copies the current line with its newline and moves to the
next line. The fuel makes the recursion structural; `t.length` always
suffices. -/
def reSubTextFuel (key repl : List Char) : Nat → List Char → List Char
  | 0, t => t
  | _ + 1, [] => []
  | fuel + 1, c :: rest' =>
    match keyEqMatchEnd key (c :: rest') with
    | some rem =>
      repl ++
        (match rem with
         | [] => []
         | c' :: rest => c' :: reSubTextFuel key repl fuel rest)
    | none =>
      List.takeWhile notNl (c :: rest') ++
        (match List.dropWhile notNl (c :: rest') with
         | [] => []
         | c' :: rest => c' :: reSubTextFuel key repl fuel rest)

/-- One `re.sub` of an anchored multiline pattern on the whole text. -/
def reSubText (key repl t : List Char) : List Char :=
  reSubTextFuel key repl t.length t

/-- Embedding of the `summary_information.conf` patching block of
`add_subtree` (`create_audit_repo.py:669-699`) on the raw file text: the
seven `re.sub` calls run in source order over the whole text. -/
def patch_summary_text (repos : List (List Char × List Char))
    (organization target_repo_name : List Char) (t : List Char) :
    List Char :=
  (summarySubs repos (target_private_url organization target_repo_name)).foldl
    (fun t kr => reSubText kr.1 kr.2 t) t

/-- Join lines with newlines: the text whose lines (all newline-free) are
the given list. -/
def joinNl : List (List Char) → List Char
  | [] => []
  | [l] => l
  | l :: l' :: ls => l ++ '\n' :: joinNl (l' :: ls)

/-- A dangling key line: one of the patched keys followed by whitespace
only. On such a line the `\s*` of the anchored pattern runs past the line
end and absorbs the newline, merging the line with the following ones. -/
def danglingKeyLine (key l : List Char) : Bool :=
  List.isPrefixOf key l
    && (List.drop key.length l).all (fun c => isPyWhitespace c)

/-- Unfolding of the scanner at non-zero fuel on a non-empty text. -/
theorem reSubTextFuel_succ (key repl : List Char) (f : Nat) (t : List Char)
    (ht : t ≠ []) :
    reSubTextFuel key repl (f + 1) t
      = match keyEqMatchEnd key t with
        | some rem =>
          repl ++
            (match rem with
             | [] => []
             | c' :: rest => c' :: reSubTextFuel key repl f rest)
        | none =>
          List.takeWhile notNl t ++
            (match List.dropWhile notNl t with
             | [] => []
             | c' :: rest => c' :: reSubTextFuel key repl f rest) := by
  cases t with
  | nil => exact absurd rfl ht
  | cons c r => rfl

/-- Characters of `dropWhile` come from the original list. -/
theorem mem_of_mem_dropWhile {p : Char → Bool} :
    ∀ {x : List Char} {a : Char}, a ∈ List.dropWhile p x → a ∈ x := by
  intro x
  induction x with
  | nil => intro a h; simp at h
  | cons c rest ih =>
    intro a h
    cases hc : p c with
    | false =>
      have he : List.dropWhile p (c :: rest) = c :: rest := by
        simp [List.dropWhile, hc]
      rw [he] at h
      exact h
    | true =>
      have he : List.dropWhile p (c :: rest) = List.dropWhile p rest := by
        simp [List.dropWhile, hc]
      rw [he] at h
      exact List.mem_cons_of_mem _ (ih h)

/-- `takeWhile notNl` keeps a newline-free list whole. -/
theorem takeWhile_notNl_of_no_nl :
    ∀ (l : List Char), '\n' ∉ l → List.takeWhile notNl l = l := by
  intro l
  induction l with
  | nil => intro _; rfl
  | cons c l' ih =>
    intro h
    have hc : (c == '\n') = false := by
      simp only [beq_eq_false_iff_ne, ne_eq]
      intro he
      exact h (he ▸ List.mem_cons_self c l')
    have h' : '\n' ∉ l' := fun m => h (List.mem_cons_of_mem _ m)
    simp [List.takeWhile, notNl, hc, ih h']

/-- `dropWhile notNl` exhausts a newline-free list. -/
theorem dropWhile_notNl_of_no_nl :
    ∀ (l : List Char), '\n' ∉ l → List.dropWhile notNl l = [] := by
  intro l
  induction l with
  | nil => intro _; rfl
  | cons c l' ih =>
    intro h
    have hc : (c == '\n') = false := by
      simp only [beq_eq_false_iff_ne, ne_eq]
      intro he
      exact h (he ▸ List.mem_cons_self c l')
    have h' : '\n' ∉ l' := fun m => h (List.mem_cons_of_mem _ m)
    simp [List.dropWhile, notNl, hc, ih h']

/-- `takeWhile notNl` over a line followed by a newline yields the line. -/
theorem takeWhile_notNl_append (l rest : List Char) (h : '\n' ∉ l) :
    List.takeWhile notNl (l ++ '\n' :: rest) = l := by
  induction l with
  | nil => simp [List.takeWhile, notNl]
  | cons c l' ih =>
    have hc : (c == '\n') = false := by
      simp only [beq_eq_false_iff_ne, ne_eq]
      intro he
      exact h (he ▸ List.mem_cons_self c l')
    have h' : '\n' ∉ l' := fun m => h (List.mem_cons_of_mem _ m)
    simp [List.takeWhile, notNl, hc, ih h']

/-- `dropWhile notNl` over a line followed by a newline yields the
remainder, newline included. -/
theorem dropWhile_notNl_append (l rest : List Char) (h : '\n' ∉ l) :
    List.dropWhile notNl (l ++ '\n' :: rest) = '\n' :: rest := by
  induction l with
  | nil => simp [List.dropWhile, notNl]
  | cons c l' ih =>
    have hc : (c == '\n') = false := by
      simp only [beq_eq_false_iff_ne, ne_eq]
      intro he
      exact h (he ▸ List.mem_cons_self c l')
    have h' : '\n' ∉ l' := fun m => h (List.mem_cons_of_mem _ m)
    simp [List.dropWhile, notNl, hc, ih h']

/-- When `dropWhile` does not exhaust the first part, it never reaches the
second. -/
theorem dropWhile_append_of_ne_nil {p : Char → Bool} :
    ∀ (x y : List Char), List.dropWhile p x ≠ [] →
      List.dropWhile p (x ++ y) = List.dropWhile p x ++ y := by
  intro x
  induction x with
  | nil => intro y h; exact absurd rfl h
  | cons c x' ih =>
    intro y h
    cases hc : p c with
    | true =>
      have he : List.dropWhile p (c :: x') = List.dropWhile p x' := by
        simp [List.dropWhile, hc]
      rw [he] at h
      have he2 : List.dropWhile p (c :: x' ++ y) = List.dropWhile p (x' ++ y) := by
        simp [List.dropWhile, hc]
      rw [he2, ih y h, he]
    | false =>
      have he : List.dropWhile p (c :: x') = c :: x' := by
        simp [List.dropWhile, hc]
      have he2 : List.dropWhile p (c :: x' ++ y) = c :: x' ++ y := by
        simp [List.dropWhile, hc]
      rw [he2, he]

/-- A `dropWhile` that exhausts the list means the predicate held
everywhere. -/
theorem all_true_of_dropWhile_eq_nil {p : Char → Bool} :
    ∀ (x : List Char), List.dropWhile p x = [] → x.all p = true := by
  intro x
  induction x with
  | nil => intro _; rfl
  | cons c x' ih =>
    intro h
    cases hc : p c with
    | false =>
      have he : List.dropWhile p (c :: x') = c :: x' := by
        simp [List.dropWhile, hc]
      rw [he] at h
      cases h
    | true =>
      have he : List.dropWhile p (c :: x') = List.dropWhile p x' := by
        simp [List.dropWhile, hc]
      rw [he] at h
      simp [List.all_cons, hc, ih h]

/-- The head of an append with a non-empty first part. -/
theorem head?_append_of_ne_nil (x y : List Char) (h : x ≠ []) :
    (x ++ y).head? = x.head? := by
  cases x with
  | nil => exact absurd rfl h
  | cons c x' => rfl

/-- A newline-free key that is no prefix of a line is no prefix of the
line extended past its newline either. -/
theorem not_prefix_append_nl (key l rest : List Char) (hkey : '\n' ∉ key)
    (h : ¬ key <+: l) : ¬ key <+: l ++ '\n' :: rest := by
  intro hp
  by_cases hl : key.length ≤ l.length
  · exact h (prefix_append_of_le_length hp hl)
  · have hk : key = l ++ List.take (key.length - l.length) ('\n' :: rest) := by
      have hx := List.prefix_iff_eq_take.mp hp
      rw [List.take_append_eq_append_take, List.take_of_length_le (by omega)]
        at hx
      exact hx
    have hmem : '\n' ∈ key := by
      rw [hk]
      refine List.mem_append.mpr (Or.inr ?_)
      cases hn : key.length - l.length with
      | zero => omega
      | succ m =>
        rw [List.take_succ_cons]
        exact List.mem_cons_self _ _
    exact hkey hmem

/-- The empty line matches no key pattern. -/
theorem matchesKeyEq_nil (key : List Char) : matchesKeyEq key [] = false := by
  simp [matchesKeyEq]

/-- A failed per-line match is a failed text-level attempt: both use the
same prefix test and the same first-non-whitespace character. -/
theorem keyEqMatchEnd_eq_none (key t : List Char)
    (h : matchesKeyEq key t = false) : keyEqMatchEnd key t = none := by
  unfold matchesKeyEq at h
  unfold keyEqMatchEnd
  cases hp : List.isPrefixOf key t with
  | false => simp [hp]
  | true =>
    rw [hp, Bool.true_and] at h
    simp [h]

/-- On a newline-free line, a per-line match is a text-level match that
consumes the whole line. -/
theorem keyEqMatchEnd_eq_some_nil (key l : List Char) (hnl : '\n' ∉ l)
    (h : matchesKeyEq key l = true) : keyEqMatchEnd key l = some [] := by
  unfold matchesKeyEq at h
  obtain ⟨hp, hh⟩ := (Bool.and_eq_true _ _).mp h
  have hr : '\n' ∉ List.dropWhile (fun c => isPyWhitespace c)
      (List.drop key.length l) :=
    fun hm => hnl (List.mem_of_mem_drop (mem_of_mem_dropWhile hm))
  unfold keyEqMatchEnd
  simp [hp, hh, dropWhile_notNl_of_no_nl _ hr]

/-- On a matching newline-free line followed by more text, the text-level
attempt matches and consumes exactly the line. -/
theorem keyEqMatchEnd_append_of_matches (key l rest : List Char)
    (hnl : '\n' ∉ l) (h : matchesKeyEq key l = true) :
    keyEqMatchEnd key (l ++ '\n' :: rest) = some ('\n' :: rest) := by
  unfold matchesKeyEq at h
  obtain ⟨hp, hh⟩ := (Bool.and_eq_true _ _).mp h
  have hpre : key <+: l := List.isPrefixOf_iff_prefix.mp hp
  have hlen : key.length ≤ l.length := hpre.length_le
  have hp2 : List.isPrefixOf key (l ++ '\n' :: rest) = true :=
    List.isPrefixOf_iff_prefix.mpr (hpre.trans (List.prefix_append l _))
  have hdrop : List.drop key.length (l ++ '\n' :: rest)
      = List.drop key.length l ++ '\n' :: rest := by
    rw [List.drop_append_eq_append_drop, Nat.sub_eq_zero_of_le hlen,
      List.drop_zero]
  have hrlne : List.dropWhile (fun c => isPyWhitespace c)
      (List.drop key.length l) ≠ [] := by
    intro he
    rw [he] at hh
    simp at hh
  have hws : List.dropWhile (fun c => isPyWhitespace c)
      (List.drop key.length l ++ '\n' :: rest)
      = List.dropWhile (fun c => isPyWhitespace c)
          (List.drop key.length l) ++ '\n' :: rest :=
    dropWhile_append_of_ne_nil _ _ hrlne
  have hhead : (List.dropWhile (fun c => isPyWhitespace c)
      (List.drop key.length l) ++ '\n' :: rest).head? = some '=' := by
    rw [head?_append_of_ne_nil _ _ hrlne]
    exact eq_of_beq hh
  have hrnl : '\n' ∉ List.dropWhile (fun c => isPyWhitespace c)
      (List.drop key.length l) :=
    fun hm => hnl (List.mem_of_mem_drop (mem_of_mem_dropWhile hm))
  have hdropnl : List.dropWhile notNl
      (List.dropWhile (fun c => isPyWhitespace c)
        (List.drop key.length l) ++ '\n' :: rest) = '\n' :: rest :=
    dropWhile_notNl_append _ rest hrnl
  unfold keyEqMatchEnd
  simp [hp2, hdrop, hws, hhead, hdropnl]

/-- On a non-matching, non-dangling, newline-free line followed by more
text, the text-level attempt fails as well: either the key is not there,
or the first non-whitespace character after it — which exists within the
line, since the line is not dangling — is not `=`. -/
theorem keyEqMatchEnd_append_of_not_matches (key l rest : List Char)
    (hkey : '\n' ∉ key) (hdang : danglingKeyLine key l = false)
    (h : matchesKeyEq key l = false) :
    keyEqMatchEnd key (l ++ '\n' :: rest) = none := by
  cases hp : List.isPrefixOf key l with
  | false =>
    have hnp : ¬ key <+: l := fun hc => by
      rw [List.isPrefixOf_iff_prefix.mpr hc] at hp
      cases hp
    have hnp2 : ¬ key <+: l ++ '\n' :: rest :=
      not_prefix_append_nl key l rest hkey hnp
    have hp2 : List.isPrefixOf key (l ++ '\n' :: rest) = false := by
      cases hx : List.isPrefixOf key (l ++ '\n' :: rest) with
      | false => rfl
      | true => exact absurd (List.isPrefixOf_iff_prefix.mp hx) hnp2
    simp [keyEqMatchEnd, hp2]
  | true =>
    have hpre : key <+: l := List.isPrefixOf_iff_prefix.mp hp
    have hlen : key.length ≤ l.length := hpre.length_le
    have hp2 : List.isPrefixOf key (l ++ '\n' :: rest) = true :=
      List.isPrefixOf_iff_prefix.mpr (hpre.trans (List.prefix_append l _))
    have hdrop : List.drop key.length (l ++ '\n' :: rest)
        = List.drop key.length l ++ '\n' :: rest := by
      rw [List.drop_append_eq_append_drop, Nat.sub_eq_zero_of_le hlen,
        List.drop_zero]
    have hh : ((List.dropWhile (fun c => isPyWhitespace c)
        (List.drop key.length l)).head? == some '=') = false := by
      unfold matchesKeyEq at h
      rw [hp, Bool.true_and] at h
      exact h
    have hall : (List.drop key.length l).all (fun c => isPyWhitespace c)
        = false := by
      unfold danglingKeyLine at hdang
      rw [hp, Bool.true_and] at hdang
      exact hdang
    have hrlne : List.dropWhile (fun c => isPyWhitespace c)
        (List.drop key.length l) ≠ [] := by
      intro he
      have := all_true_of_dropWhile_eq_nil _ he
      rw [this] at hall
      cases hall
    have hws : List.dropWhile (fun c => isPyWhitespace c)
        (List.drop key.length l ++ '\n' :: rest)
        = List.dropWhile (fun c => isPyWhitespace c)
            (List.drop key.length l) ++ '\n' :: rest :=
      dropWhile_append_of_ne_nil _ _ hrlne
    have hhead : (List.dropWhile (fun c => isPyWhitespace c)
        (List.drop key.length l) ++ '\n' :: rest).head?
        = (List.dropWhile (fun c => isPyWhitespace c)
            (List.drop key.length l)).head? :=
      head?_append_of_ne_nil _ _ hrlne
    simp [keyEqMatchEnd, hp2, hdrop, hws, hhead, hh]

/-- Bridge: on a text assembled from newline-free lines none of which is a
dangling key line, the text-level multiline substitution acts exactly as
the per-line whole-line substitution. -/
theorem reSubTextFuel_joinNl (key repl : List Char) (hkey : '\n' ∉ key) :
    ∀ (ls : List (List Char)) (fuel : Nat), (joinNl ls).length ≤ fuel →
      (∀ l ∈ ls, '\n' ∉ l ∧ danglingKeyLine key l = false) →
      reSubTextFuel key repl fuel (joinNl ls)
        = joinNl (subLines key repl ls) := by
  intro ls
  induction ls with
  | nil =>
    intro fuel _ _
    cases fuel <;> rfl
  | cons l ls' ih =>
    intro fuel hfuel hyps
    obtain ⟨hnl, hdang⟩ := hyps l (List.mem_cons_self l ls')
    cases ls' with
    | nil =>
      cases hm : matchesKeyEq key l with
      | true =>
        cases l with
        | nil => rw [matchesKeyEq_nil] at hm; cases hm
        | cons c l'' =>
          have hsome := keyEqMatchEnd_eq_some_nil key (c :: l'') hnl hm
          obtain ⟨f, rfl⟩ : ∃ f, fuel = f + 1 := ⟨fuel - 1, by
            simp [joinNl] at hfuel
            omega⟩
          show reSubTextFuel key repl (f + 1) (c :: l'') = _
          simp only [reSubTextFuel, hsome]
          simp [subLines, hm, joinNl]
      | false =>
        cases fuel with
        | zero =>
          have hl0 : l = [] := by
            have hlen : l.length ≤ 0 := by
              rw [show joinNl [l] = l from rfl] at hfuel
              exact hfuel
            exact List.eq_nil_of_length_eq_zero (Nat.le_zero.mp hlen)
          subst hl0
          simp [reSubTextFuel, subLines, hm, joinNl]
        | succ f =>
          cases l with
          | nil => simp [joinNl, reSubTextFuel, subLines, hm]
          | cons c l'' =>
            have hnone := keyEqMatchEnd_eq_none key (c :: l'') hm
            show reSubTextFuel key repl (f + 1) (c :: l'') = _
            simp only [reSubTextFuel, hnone]
            rw [takeWhile_notNl_of_no_nl _ hnl, dropWhile_notNl_of_no_nl _ hnl]
            simp [subLines, hm, joinNl]
    | cons l' ls'' =>
      have hjoin : joinNl (l :: l' :: ls'')
          = l ++ '\n' :: joinNl (l' :: ls'') := rfl
      obtain ⟨f, rfl⟩ : ∃ f, fuel = f + 1 := ⟨fuel - 1, by
        rw [hjoin] at hfuel
        simp at hfuel
        omega⟩
      have hfT : (joinNl (l' :: ls'')).length ≤ f := by
        rw [hjoin] at hfuel
        simp at hfuel
        omega
      have hypsrest : ∀ l₂ ∈ l' :: ls'',
          '\n' ∉ l₂ ∧ danglingKeyLine key l₂ = false :=
        fun l₂ h₂ => hyps l₂ (List.mem_cons_of_mem _ h₂)
      have ihT := ih f hfT hypsrest
      rw [hjoin]
      cases hm : matchesKeyEq key l with
      | true =>
        have hsome := keyEqMatchEnd_append_of_matches key l
          (joinNl (l' :: ls'')) hnl hm
        rw [reSubTextFuel_succ key repl f _ (by simp), hsome]
        have hsub : subLines key repl (l :: l' :: ls'')
            = repl :: subLines key repl (l' :: ls'') := by
          simp [subLines, hm]
        rw [hsub]
        simp only [ihT]
        simp [subLines, joinNl]
      | false =>
        have hnone := keyEqMatchEnd_append_of_not_matches key l
          (joinNl (l' :: ls'')) hkey hdang hm
        rw [reSubTextFuel_succ key repl f _ (by simp), hnone]
        rw [takeWhile_notNl_append l _ hnl, dropWhile_notNl_append l _ hnl]
        have hsub : subLines key repl (l :: l' :: ls'')
            = l :: subLines key repl (l' :: ls'') := by
          simp [subLines, hm]
        rw [hsub]
        simp only [ihT]
        simp [subLines, joinNl]

/-- The text-level substitution with its standard fuel. -/
theorem reSubText_joinNl (key repl : List Char) (hkey : '\n' ∉ key)
    (ls : List (List Char))
    (hls : ∀ l ∈ ls, '\n' ∉ l ∧ danglingKeyLine key l = false) :
    reSubText key repl (joinNl ls) = joinNl (subLines key repl ls) :=
  reSubTextFuel_joinNl key repl hkey ls (joinNl ls).length (Nat.le_refl _) hls

/-- No replacement line `K ++ " = " ++ value` is dangling for a space-free
key: a key fitting within `K` is followed by the separator's `=`, a
non-whitespace character, and a key reaching past `K` would contain the
separator's space. -/
theorem not_dangling_replacement (k' k v : List Char) (h : ' ' ∉ k') :
    danglingKeyLine k' (k ++ eqSep ++ v) = false := by
  rw [List.append_assoc]
  cases hp : List.isPrefixOf k' (k ++ (eqSep ++ v)) with
  | false =>
    unfold danglingKeyLine
    rw [hp, Bool.false_and]
  | true =>
    have hpre : k' <+: k ++ (eqSep ++ v) := List.isPrefixOf_iff_prefix.mp hp
    by_cases hl : k'.length ≤ k.length
    · have hdrop : List.drop k'.length (k ++ (eqSep ++ v))
          = List.drop k'.length k ++ (eqSep ++ v) := by
        rw [List.drop_append_eq_append_drop, Nat.sub_eq_zero_of_le hl,
          List.drop_zero]
      have hmem : '=' ∈ List.drop k'.length (k ++ (eqSep ++ v)) := by
        rw [hdrop]
        refine List.mem_append.mpr (Or.inr ?_)
        refine List.mem_append.mpr (Or.inl ?_)
        decide
      have hall : (List.drop k'.length (k ++ (eqSep ++ v))).all
          (fun c => isPyWhitespace c) = false := by
        cases hx : (List.drop k'.length (k ++ (eqSep ++ v))).all
            (fun c => isPyWhitespace c) with
        | false => rfl
        | true =>
          have hws := List.all_eq_true.mp hx '=' hmem
          exact absurd hws (by decide)
      unfold danglingKeyLine
      rw [hp, hall, Bool.true_and]
    · exfalso
      have hk : k' = k ++ List.take (k'.length - k.length) (eqSep ++ v) := by
        have hx := List.prefix_iff_eq_take.mp hpre
        rw [List.take_append_eq_append_take, List.take_of_length_le (by omega)]
          at hx
        exact hx
      have hmem : ' ' ∈ k' := by
        rw [hk]
        refine List.mem_append.mpr (Or.inr ?_)
        cases hn : k'.length - k.length with
        | zero => exact absurd hn (by omega)
        | succ m =>
          rw [show eqSep ++ v = ' ' :: ('=' :: ' ' :: v) from rfl,
            List.take_succ_cons]
          exact List.mem_cons_self _ _
      exact h hmem

/-- A replacement line contains no newline when the key and the value do
not. -/
theorem nl_not_mem_repl (k v : List Char) (hk : '\n' ∉ k) (hv : '\n' ∉ v) :
    '\n' ∉ k ++ eqSep ++ v := by
  intro hmem
  rcases List.mem_append.mp hmem with h | h
  · rcases List.mem_append.mp h with h | h
    · exact hk h
    · exact absurd h (by decide)
  · exact hv h

/-- The target repository URL contains no newline when the organization and
repository names do not. -/
theorem nl_not_mem_target_private_url (organization target_repo_name : List Char)
    (h1 : '\n' ∉ organization) (h2 : '\n' ∉ target_repo_name) :
    '\n' ∉ target_private_url organization target_repo_name := by
  intro hmem
  unfold target_private_url at hmem
  rcases List.mem_append.mp hmem with h | h
  · rcases List.mem_append.mp h with h | h
    · rcases List.mem_append.mp h with h | h
      · exact absurd h (by decide)
      · exact h1 h
    · rcases List.mem_cons.mp h with h | h
      · exact absurd h (by decide)
      · exact h2 h
  · exact absurd h (by decide)

/-- Bridge for a sequence of substitutions: when the lines are newline-free
and dangle for no key in the sequence, and every replacement line is
newline-free and dangles for no key either, the text-level sequence equals
the line-level sequence. -/
theorem foldl_reSubText_joinNl :
    ∀ (krs : List (List Char × List Char)) (ls : List (List Char)),
      (∀ kr ∈ krs, '\n' ∉ kr.1) →
      (∀ kr ∈ krs, '\n' ∉ kr.2) →
      (∀ kr ∈ krs, ∀ kr' ∈ krs, danglingKeyLine kr.1 kr'.2 = false) →
      (∀ l ∈ ls, '\n' ∉ l ∧ ∀ kr ∈ krs, danglingKeyLine kr.1 l = false) →
      krs.foldl (fun t kr => reSubText kr.1 kr.2 t) (joinNl ls)
        = joinNl (krs.foldl (fun ls kr => subLines kr.1 kr.2 ls) ls) := by
  intro krs
  induction krs with
  | nil => intro ls _ _ _ _; rfl
  | cons kr krs' ih =>
    intro ls h1 h2 h3 h4
    rw [List.foldl_cons, List.foldl_cons]
    have hstep : reSubText kr.1 kr.2 (joinNl ls)
        = joinNl (subLines kr.1 kr.2 ls) :=
      reSubText_joinNl kr.1 kr.2 (h1 kr (List.mem_cons_self _ _)) ls
        (fun l hl => ⟨(h4 l hl).1, (h4 l hl).2 kr (List.mem_cons_self _ _)⟩)
    rw [hstep]
    refine ih (subLines kr.1 kr.2 ls)
      (fun kr₂ hm => h1 kr₂ (List.mem_cons_of_mem _ hm))
      (fun kr₂ hm => h2 kr₂ (List.mem_cons_of_mem _ hm))
      (fun kr₂ hm kr₃ hm' =>
        h3 kr₂ (List.mem_cons_of_mem _ hm) kr₃ (List.mem_cons_of_mem _ hm'))
      ?_
    intro l₂ hl₂
    simp only [subLines] at hl₂
    obtain ⟨l₀, hl₀, hl₀eq⟩ := List.mem_map.mp hl₂
    have hl₂eq : (if matchesKeyEq kr.1 l₀ then kr.2 else l₀) = l₂ := hl₀eq
    cases hm : matchesKeyEq kr.1 l₀ with
    | true =>
      rw [hm] at hl₂eq
      simp at hl₂eq
      subst hl₂eq
      exact ⟨h2 kr (List.mem_cons_self _ _),
        fun kr₂ hm₂ =>
          h3 kr₂ (List.mem_cons_of_mem _ hm₂) kr (List.mem_cons_self _ _)⟩
    | false =>
      rw [hm] at hl₂eq
      simp at hl₂eq
      subst hl₂eq
      exact ⟨(h4 l₀ hl₀).1,
        fun kr₂ hm₂ => (h4 l₀ hl₀).2 kr₂ (List.mem_cons_of_mem _ hm₂)⟩

/-- All seven patched keys are newline-free. -/
theorem summarySubs_keys_no_nl (u₁ h₁ u₂ h₂ u₃ h₃ priv : List Char)
    (extra : List (List Char × List Char)) :
    ∀ kr ∈ summarySubs ((u₁, h₁) :: (u₂, h₂) :: (u₃, h₃) :: extra) priv,
      '\n' ∉ kr.1 := by
  have n1 : '\n' ∉ pgKey [] := by decide
  have n2 : '\n' ∉ chKey [] := by decide
  have n3 : '\n' ∉ pgKey ['_', '2'] := by decide
  have n4 : '\n' ∉ chKey ['_', '2'] := by decide
  have n5 : '\n' ∉ pgKey ['_', '3'] := by decide
  have n6 : '\n' ∉ chKey ['_', '3'] := by decide
  have n7 : '\n' ∉ pvKey := by decide
  intro kr hkr
  rw [summarySubs_eq] at hkr
  simp only [List.mem_cons, List.not_mem_nil, or_false] at hkr
  rcases hkr with rfl | rfl | rfl | rfl | rfl | rfl | rfl <;>
    first
    | exact n1
    | exact n2
    | exact n3
    | exact n4
    | exact n5
    | exact n6
    | exact n7

/-- All seven replacement lines are newline-free when the substituted
values are. -/
theorem summarySubs_repls_no_nl (u₁ h₁ u₂ h₂ u₃ h₃ priv : List Char)
    (extra : List (List Char × List Char))
    (hu₁ : '\n' ∉ u₁) (hh₁ : '\n' ∉ h₁) (hu₂ : '\n' ∉ u₂) (hh₂ : '\n' ∉ h₂)
    (hu₃ : '\n' ∉ u₃) (hh₃ : '\n' ∉ h₃) (hpriv : '\n' ∉ priv) :
    ∀ kr ∈ summarySubs ((u₁, h₁) :: (u₂, h₂) :: (u₃, h₃) :: extra) priv,
      '\n' ∉ kr.2 := by
  have n1 : '\n' ∉ pgKey [] := by decide
  have n2 : '\n' ∉ chKey [] := by decide
  have n3 : '\n' ∉ pgKey ['_', '2'] := by decide
  have n4 : '\n' ∉ chKey ['_', '2'] := by decide
  have n5 : '\n' ∉ pgKey ['_', '3'] := by decide
  have n6 : '\n' ∉ chKey ['_', '3'] := by decide
  have n7 : '\n' ∉ pvKey := by decide
  intro kr hkr
  rw [summarySubs_eq] at hkr
  simp only [List.mem_cons, List.not_mem_nil, or_false] at hkr
  rcases hkr with rfl | rfl | rfl | rfl | rfl | rfl | rfl <;>
    first
    | exact nl_not_mem_repl _ _ n1 hu₁
    | exact nl_not_mem_repl _ _ n2 hh₁
    | exact nl_not_mem_repl _ _ n3 hu₂
    | exact nl_not_mem_repl _ _ n4 hh₂
    | exact nl_not_mem_repl _ _ n5 hu₃
    | exact nl_not_mem_repl _ _ n6 hh₃
    | exact nl_not_mem_repl _ _ n7 hpriv

/-- No replacement line of the patching is dangling for any of its keys. -/
theorem summarySubs_no_dangling (u₁ h₁ u₂ h₂ u₃ h₃ priv : List Char)
    (extra : List (List Char × List Char)) :
    ∀ kr ∈ summarySubs ((u₁, h₁) :: (u₂, h₂) :: (u₃, h₃) :: extra) priv,
      ∀ kr' ∈ summarySubs ((u₁, h₁) :: (u₂, h₂) :: (u₃, h₃) :: extra) priv,
        danglingKeyLine kr.1 kr'.2 = false := by
  have s1 : ' ' ∉ pgKey [] := by decide
  have s2 : ' ' ∉ chKey [] := by decide
  have s3 : ' ' ∉ pgKey ['_', '2'] := by decide
  have s4 : ' ' ∉ chKey ['_', '2'] := by decide
  have s5 : ' ' ∉ pgKey ['_', '3'] := by decide
  have s6 : ' ' ∉ chKey ['_', '3'] := by decide
  have s7 : ' ' ∉ pvKey := by decide
  intro kr hkr kr' hkr'
  rw [summarySubs_eq] at hkr hkr'
  simp only [List.mem_cons, List.not_mem_nil, or_false] at hkr hkr'
  rcases hkr with rfl | rfl | rfl | rfl | rfl | rfl | rfl <;>
    rcases hkr' with rfl | rfl | rfl | rfl | rfl | rfl | rfl <;>
      first
      | exact not_dangling_replacement _ _ _ s1
      | exact not_dangling_replacement _ _ _ s2
      | exact not_dangling_replacement _ _ _ s3
      | exact not_dangling_replacement _ _ _ s4
      | exact not_dangling_replacement _ _ _ s5
      | exact not_dangling_replacement _ _ _ s6
      | exact not_dangling_replacement _ _ _ s7

/-- C6 counterexample: the claim says every line not matching one of the
anchored whole-line patterns is left unchanged. Python `\s` matches the
newline, so on the two-line text `project_github` / `= old` the program's
`re.sub` matches across the line boundary — `\s*` absorbs the newline —
and rewrites the whole two-line region to the replacement, although
neither line matches the whole-line pattern (the first is a dangling key
line). -/
theorem patch_summary_information_counterexample :
    reSubText (pgKey []) (pgKey [] ++ eqSep ++ "URL".toList)
        (joinNl ["project_github".toList, "= old".toList])
      = pgKey [] ++ eqSep ++ "URL".toList
    ∧ matchesKeyEq (pgKey []) "project_github".toList = false
    ∧ matchesKeyEq (pgKey []) "= old".toList = false
    ∧ danglingKeyLine (pgKey []) "project_github".toList = true
    ∧ "project_github".toList ≠ pgKey [] ++ eqSep ++ "URL".toList := by
  refine ⟨by decide, by decide, by decide, by decide, by decide⟩

/-- C6 (amended): provided the substituted values contain no newline and no
line of the file consists of one of the patched keys followed only by
whitespace (a dangling key line, on which `\s*` would match past the line
end), patching `summary_information.conf` (i) ignores source entries
beyond the third, (ii) acts strictly line by line — the raw-text multiline
substitutions coincide with the per-line whole-line rewriting, both for a
single pattern and for the program's whole substitution sequence —
(iii) leaves every line matching none of the anchored whole-line patterns
unchanged, and (iv) for a run with at least three source entries rewrites
every line matching `^project_github<sfx>\s*=.*$`
(resp. `^commit_hash<sfx>\s*=.*$`) for suffixes (empty), `_2`, `_3` to the
corresponding entry's source URL (resp. commit hash), and every line
matching `^private_github\s*=.*$` to the target repository's URL. On a
dangling key line the substitution instead merges lines, as the
counterexample shows. -/
theorem patch_summary_information_amended :
    ∀ (u₁ h₁ u₂ h₂ u₃ h₃ organization target_repo_name : List Char)
      (extra : List (List Char × List Char)),
      '\n' ∉ u₁ → '\n' ∉ h₁ → '\n' ∉ u₂ → '\n' ∉ h₂ → '\n' ∉ u₃ →
      '\n' ∉ h₃ → '\n' ∉ organization → '\n' ∉ target_repo_name →
      (∀ (repos : List (List Char × List Char)) (ls : List (List Char)),
        patch_summary_information repos organization target_repo_name ls
          = patch_summary_information (repos.take 3) organization
              target_repo_name ls)
      ∧ (∀ (repos : List (List Char × List Char)) (ls : List (List Char)),
        patch_summary_information repos organization target_repo_name ls
          = ls.map (applySubsLine (summarySubs repos
              (target_private_url organization target_repo_name))))
      ∧ (∀ (repos : List (List Char × List Char)) (l : List Char),
        (∀ kr ∈ summarySubs repos
            (target_private_url organization target_repo_name),
          matchesKeyEq kr.1 l = false) →
        applySubsLine (summarySubs repos
          (target_private_url organization target_repo_name)) l = l)
      ∧ (∀ (key repl : List Char) (ls : List (List Char)), '\n' ∉ key →
        (∀ l ∈ ls, '\n' ∉ l ∧ danglingKeyLine key l = false) →
        reSubText key repl (joinNl ls) = joinNl (subLines key repl ls))
      ∧ (∀ ls : List (List Char),
        (∀ l ∈ ls, '\n' ∉ l ∧
          ∀ kr ∈ summarySubs ((u₁, h₁) :: (u₂, h₂) :: (u₃, h₃) :: extra)
              (target_private_url organization target_repo_name),
            danglingKeyLine kr.1 l = false) →
        patch_summary_text ((u₁, h₁) :: (u₂, h₂) :: (u₃, h₃) :: extra)
            organization target_repo_name (joinNl ls)
          = joinNl (patch_summary_information
              ((u₁, h₁) :: (u₂, h₂) :: (u₃, h₃) :: extra)
              organization target_repo_name ls))
      ∧ (∀ l : List Char, matchesKeyEq (pgKey []) l = true →
        applySubsLine (summarySubs ((u₁, h₁) :: (u₂, h₂) :: (u₃, h₃) :: extra)
            (target_private_url organization target_repo_name)) l
          = pgKey [] ++ eqSep ++ u₁)
      ∧ (∀ l : List Char, matchesKeyEq (chKey []) l = true →
        applySubsLine (summarySubs ((u₁, h₁) :: (u₂, h₂) :: (u₃, h₃) :: extra)
            (target_private_url organization target_repo_name)) l
          = chKey [] ++ eqSep ++ h₁)
      ∧ (∀ l : List Char, matchesKeyEq (pgKey ['_', '2']) l = true →
        applySubsLine (summarySubs ((u₁, h₁) :: (u₂, h₂) :: (u₃, h₃) :: extra)
            (target_private_url organization target_repo_name)) l
          = pgKey ['_', '2'] ++ eqSep ++ u₂)
      ∧ (∀ l : List Char, matchesKeyEq (chKey ['_', '2']) l = true →
        applySubsLine (summarySubs ((u₁, h₁) :: (u₂, h₂) :: (u₃, h₃) :: extra)
            (target_private_url organization target_repo_name)) l
          = chKey ['_', '2'] ++ eqSep ++ h₂)
      ∧ (∀ l : List Char, matchesKeyEq (pgKey ['_', '3']) l = true →
        applySubsLine (summarySubs ((u₁, h₁) :: (u₂, h₂) :: (u₃, h₃) :: extra)
            (target_private_url organization target_repo_name)) l
          = pgKey ['_', '3'] ++ eqSep ++ u₃)
      ∧ (∀ l : List Char, matchesKeyEq (chKey ['_', '3']) l = true →
        applySubsLine (summarySubs ((u₁, h₁) :: (u₂, h₂) :: (u₃, h₃) :: extra)
            (target_private_url organization target_repo_name)) l
          = chKey ['_', '3'] ++ eqSep ++ h₃)
      ∧ (∀ l : List Char, matchesKeyEq pvKey l = true →
        applySubsLine (summarySubs ((u₁, h₁) :: (u₂, h₂) :: (u₃, h₃) :: extra)
            (target_private_url organization target_repo_name)) l
          = pvKey ++ eqSep ++ target_private_url organization target_repo_name) := by
  intro u₁ h₁ u₂ h₂ u₃ h₃ organization target_repo_name extra
  intro hu₁ hh₁ hu₂ hh₂ hu₃ hh₃ horg hname
  refine ⟨?_, ?_, ?_, ?_, ?_, ?_, ?_, ?_, ?_, ?_, ?_, ?_⟩
  · intro repos ls
    unfold patch_summary_information summarySubs
    simp [List.take_take]
  · intro repos ls
    exact foldl_subLines_eq_map _ ls
  · intro repos l h
    exact applySubsLine_id _ l h
  · intro key repl ls hkey hls
    exact reSubText_joinNl key repl hkey ls hls
  · intro ls hls
    exact foldl_reSubText_joinNl _ ls
      (summarySubs_keys_no_nl u₁ h₁ u₂ h₂ u₃ h₃ _ extra)
      (summarySubs_repls_no_nl u₁ h₁ u₂ h₂ u₃ h₃ _ extra hu₁ hh₁ hu₂ hh₂ hu₃
        hh₃ (nl_not_mem_target_private_url organization target_repo_name
          horg hname))
      (summarySubs_no_dangling u₁ h₁ u₂ h₂ u₃ h₃ _ extra)
      hls
  · intro l hm
    rw [summarySubs_eq]
    have hl := eq_append_drop_of_matches _ _ hm
    set t := List.drop (pgKey []).length l with ht
    have g2 : matchesKeyEq (chKey []) (pgKey [] ++ (eqSep ++ u₁)) = false := by
      rw [← List.append_assoc]
      exact matchesKeyEq_of_ne _ _ (by decide) (by decide) u₁
    have g3 : matchesKeyEq (pgKey ['_', '2']) (pgKey [] ++ (eqSep ++ u₁)) = false := by
      rw [← List.append_assoc]
      exact matchesKeyEq_of_ne _ _ (by decide) (by decide) u₁
    have g4 : matchesKeyEq (chKey ['_', '2']) (pgKey [] ++ (eqSep ++ u₁)) = false := by
      rw [← List.append_assoc]
      exact matchesKeyEq_of_ne _ _ (by decide) (by decide) u₁
    have g5 : matchesKeyEq (pgKey ['_', '3']) (pgKey [] ++ (eqSep ++ u₁)) = false := by
      rw [← List.append_assoc]
      exact matchesKeyEq_of_ne _ _ (by decide) (by decide) u₁
    have g6 : matchesKeyEq (chKey ['_', '3']) (pgKey [] ++ (eqSep ++ u₁)) = false := by
      rw [← List.append_assoc]
      exact matchesKeyEq_of_ne _ _ (by decide) (by decide) u₁
    have g7 : matchesKeyEq pvKey (pgKey [] ++ (eqSep ++ u₁)) = false := by
      rw [← List.append_assoc]
      exact matchesKeyEq_of_ne _ _ (by decide) (by decide) u₁
    simp [applySubsLine, hm, g2, g3, g4, g5, g6, g7]
  · intro l hm
    rw [summarySubs_eq]
    have hl := eq_append_drop_of_matches _ _ hm
    set t := List.drop (chKey []).length l with ht
    have f1 : matchesKeyEq (pgKey []) l = false := by
      rw [hl]
      exact matchesKeyEq_of_ne _ _ (by decide) (by decide) t
    have g3 : matchesKeyEq (pgKey ['_', '2']) (chKey [] ++ (eqSep ++ h₁)) = false := by
      rw [← List.append_assoc]
      exact matchesKeyEq_of_ne _ _ (by decide) (by decide) h₁
    have g4 : matchesKeyEq (chKey ['_', '2']) (chKey [] ++ (eqSep ++ h₁)) = false := by
      rw [← List.append_assoc]
      exact matchesKeyEq_of_ne _ _ (by decide) (by decide) h₁
    have g5 : matchesKeyEq (pgKey ['_', '3']) (chKey [] ++ (eqSep ++ h₁)) = false := by
      rw [← List.append_assoc]
      exact matchesKeyEq_of_ne _ _ (by decide) (by decide) h₁
    have g6 : matchesKeyEq (chKey ['_', '3']) (chKey [] ++ (eqSep ++ h₁)) = false := by
      rw [← List.append_assoc]
      exact matchesKeyEq_of_ne _ _ (by decide) (by decide) h₁
    have g7 : matchesKeyEq pvKey (chKey [] ++ (eqSep ++ h₁)) = false := by
      rw [← List.append_assoc]
      exact matchesKeyEq_of_ne _ _ (by decide) (by decide) h₁
    simp [applySubsLine, hm, f1, g3, g4, g5, g6, g7]
  · intro l hm
    rw [summarySubs_eq]
    have hl := eq_append_drop_of_matches _ _ hm
    set t := List.drop (pgKey ['_', '2']).length l with ht
    have f1 : matchesKeyEq (pgKey []) l = false := by
      rw [hl, show pgKey ['_', '2'] ++ t = pgKey [] ++ '_' :: '2' :: t by
        simp [pgKey]]
      exact matchesKeyEq_key_cons_false _ '_' _ (by decide) (by decide)
    have f2 : matchesKeyEq (chKey []) l = false := by
      rw [hl]
      exact matchesKeyEq_of_ne _ _ (by decide) (by decide) t
    have g4 : matchesKeyEq (chKey ['_', '2'])
        (pgKey ['_', '2'] ++ (eqSep ++ u₂)) = false := by
      rw [← List.append_assoc]
      exact matchesKeyEq_of_ne _ _ (by decide) (by decide) u₂
    have g5 : matchesKeyEq (pgKey ['_', '3'])
        (pgKey ['_', '2'] ++ (eqSep ++ u₂)) = false := by
      rw [← List.append_assoc]
      exact matchesKeyEq_of_ne _ _ (by decide) (by decide) u₂
    have g6 : matchesKeyEq (chKey ['_', '3'])
        (pgKey ['_', '2'] ++ (eqSep ++ u₂)) = false := by
      rw [← List.append_assoc]
      exact matchesKeyEq_of_ne _ _ (by decide) (by decide) u₂
    have g7 : matchesKeyEq pvKey (pgKey ['_', '2'] ++ (eqSep ++ u₂)) = false := by
      rw [← List.append_assoc]
      exact matchesKeyEq_of_ne _ _ (by decide) (by decide) u₂
    simp [applySubsLine, hm, f1, f2, g4, g5, g6, g7]
  · intro l hm
    rw [summarySubs_eq]
    have hl := eq_append_drop_of_matches _ _ hm
    set t := List.drop (chKey ['_', '2']).length l with ht
    have f1 : matchesKeyEq (pgKey []) l = false := by
      rw [hl]
      exact matchesKeyEq_of_ne _ _ (by decide) (by decide) t
    have f2 : matchesKeyEq (chKey []) l = false := by
      rw [hl, show chKey ['_', '2'] ++ t = chKey [] ++ '_' :: '2' :: t by
        simp [chKey]]
      exact matchesKeyEq_key_cons_false _ '_' _ (by decide) (by decide)
    have f3 : matchesKeyEq (pgKey ['_', '2']) l = false := by
      rw [hl]
      exact matchesKeyEq_of_ne _ _ (by decide) (by decide) t
    have g5 : matchesKeyEq (pgKey ['_', '3'])
        (chKey ['_', '2'] ++ (eqSep ++ h₂)) = false := by
      rw [← List.append_assoc]
      exact matchesKeyEq_of_ne _ _ (by decide) (by decide) h₂
    have g6 : matchesKeyEq (chKey ['_', '3'])
        (chKey ['_', '2'] ++ (eqSep ++ h₂)) = false := by
      rw [← List.append_assoc]
      exact matchesKeyEq_of_ne _ _ (by decide) (by decide) h₂
    have g7 : matchesKeyEq pvKey (chKey ['_', '2'] ++ (eqSep ++ h₂)) = false := by
      rw [← List.append_assoc]
      exact matchesKeyEq_of_ne _ _ (by decide) (by decide) h₂
    simp [applySubsLine, hm, f1, f2, f3, g5, g6, g7]
  · intro l hm
    rw [summarySubs_eq]
    have hl := eq_append_drop_of_matches _ _ hm
    set t := List.drop (pgKey ['_', '3']).length l with ht
    have f1 : matchesKeyEq (pgKey []) l = false := by
      rw [hl, show pgKey ['_', '3'] ++ t = pgKey [] ++ '_' :: '3' :: t by
        simp [pgKey]]
      exact matchesKeyEq_key_cons_false _ '_' _ (by decide) (by decide)
    have f2 : matchesKeyEq (chKey []) l = false := by
      rw [hl]
      exact matchesKeyEq_of_ne _ _ (by decide) (by decide) t
    have f3 : matchesKeyEq (pgKey ['_', '2']) l = false := by
      rw [hl]
      exact matchesKeyEq_of_ne _ _ (by decide) (by decide) t
    have f4 : matchesKeyEq (chKey ['_', '2']) l = false := by
      rw [hl]
      exact matchesKeyEq_of_ne _ _ (by decide) (by decide) t
    have g6 : matchesKeyEq (chKey ['_', '3'])
        (pgKey ['_', '3'] ++ (eqSep ++ u₃)) = false := by
      rw [← List.append_assoc]
      exact matchesKeyEq_of_ne _ _ (by decide) (by decide) u₃
    have g7 : matchesKeyEq pvKey (pgKey ['_', '3'] ++ (eqSep ++ u₃)) = false := by
      rw [← List.append_assoc]
      exact matchesKeyEq_of_ne _ _ (by decide) (by decide) u₃
    simp [applySubsLine, hm, f1, f2, f3, f4, g6, g7]
  · intro l hm
    rw [summarySubs_eq]
    have hl := eq_append_drop_of_matches _ _ hm
    set t := List.drop (chKey ['_', '3']).length l with ht
    have f1 : matchesKeyEq (pgKey []) l = false := by
      rw [hl]
      exact matchesKeyEq_of_ne _ _ (by decide) (by decide) t
    have f2 : matchesKeyEq (chKey []) l = false := by
      rw [hl, show chKey ['_', '3'] ++ t = chKey [] ++ '_' :: '3' :: t by
        simp [chKey]]
      exact matchesKeyEq_key_cons_false _ '_' _ (by decide) (by decide)
    have f3 : matchesKeyEq (pgKey ['_', '2']) l = false := by
      rw [hl]
      exact matchesKeyEq_of_ne _ _ (by decide) (by decide) t
    have f4 : matchesKeyEq (chKey ['_', '2']) l = false := by
      rw [hl]
      exact matchesKeyEq_of_ne _ _ (by decide) (by decide) t
    have f5 : matchesKeyEq (pgKey ['_', '3']) l = false := by
      rw [hl]
      exact matchesKeyEq_of_ne _ _ (by decide) (by decide) t
    have g7 : matchesKeyEq pvKey (chKey ['_', '3'] ++ (eqSep ++ h₃)) = false := by
      rw [← List.append_assoc]
      exact matchesKeyEq_of_ne _ _ (by decide) (by decide) h₃
    simp [applySubsLine, hm, f1, f2, f3, f4, f5, g7]
  · intro l hm
    rw [summarySubs_eq]
    have hl := eq_append_drop_of_matches _ _ hm
    set t := List.drop pvKey.length l with ht
    have f1 : matchesKeyEq (pgKey []) l = false := by
      rw [hl]
      exact matchesKeyEq_of_ne _ _ (by decide) (by decide) t
    have f2 : matchesKeyEq (chKey []) l = false := by
      rw [hl]
      exact matchesKeyEq_of_ne _ _ (by decide) (by decide) t
    have f3 : matchesKeyEq (pgKey ['_', '2']) l = false := by
      rw [hl]
      exact matchesKeyEq_of_ne _ _ (by decide) (by decide) t
    have f4 : matchesKeyEq (chKey ['_', '2']) l = false := by
      rw [hl]
      exact matchesKeyEq_of_ne _ _ (by decide) (by decide) t
    have f5 : matchesKeyEq (pgKey ['_', '3']) l = false := by
      rw [hl]
      exact matchesKeyEq_of_ne _ _ (by decide) (by decide) t
    have f6 : matchesKeyEq (chKey ['_', '3']) l = false := by
      rw [hl]
      exact matchesKeyEq_of_ne _ _ (by decide) (by decide) t
    simp [applySubsLine, hm, f1, f2, f3, f4, f5, f6]

/-- Witness for `patch_summary_information_amended`: on a concrete
newline-free file with no dangling key line the raw-text multiline
substitution pipeline coincides with the per-line rewriting. -/
theorem patch_summary_information_amended_witness :
    patch_summary_text
        [("uA".toList, "hA".toList), ("uB".toList, "hB".toList),
         ("uC".toList, "hC".toList)]
        "org".toList "repo".toList
        (joinNl ["project_github = x".toList, "note".toList])
      = joinNl (patch_summary_information
          [("uA".toList, "hA".toList), ("uB".toList, "hB".toList),
           ("uC".toList, "hC".toList)]
          "org".toList "repo".toList
          ["project_github = x".toList, "note".toList]) :=
  (patch_summary_information_amended "uA".toList "hA".toList "uB".toList
    "hB".toList "uC".toList "hC".toList "org".toList "repo".toList []
    (by decide) (by decide) (by decide) (by decide) (by decide) (by decide)
    (by decide) (by decide)).2.2.2.2.1
    ["project_github = x".toList, "note".toList] (by decide)
